import Mathlib

/-!
Shallow embedding of the `async_dag` task-graph library.

The model follows the source files `src/src/tuple.rs`, `src/src/curry.rs`,
`src/src/any.rs`, `src/src/graph.rs`, `src/src/graph/error.rs` and
`src/src/graph/runner.rs`.

Modelling conventions:
  * A Rust `TypeId` fingerprint is a `Nat`; `TypeInfo` pairs it with the
    advisory name, and (as in `any.rs`) equality of fingerprints compares the
    id alone.
  * A type-erased value (`DynAny`) is its intrinsic `TypeInfo` together with
    an integer payload (the examples only transport `i32` values; payloads in
    the claims stay far below `2^31`, so unbounded `Int` is exact).
  * A task's future is pure: the result is determined when the task is
    called, and the `select_all` completion order is an explicit schedule
    parameter of the driver.
  * Rust panics (failed `unwrap`, failed `assert!`, out-of-bounds
    `node_weight`) are modelled by `Option.none` propagation.
  * The `daggy`/`petgraph` substrate is modelled concretely: nodes and edges
    are growable lists indexed by position, `remove_edge` swap-removes (the
    last edge is moved into the removed slot), and `add_edge` refuses an edge
    `a → b` exactly when a path from `b` to `a` already exists.
-/

namespace AsyncDag

/-- Fingerprint of a Rust type: a stable identity plus a human-readable name
(`any.rs`, `TypeInfo`). Equality of fingerprints uses the id alone. -/
structure TypeInfo where
  id : Nat
  name : String
deriving DecidableEq, Repr

/-- A type-erased, clonable value (`any.rs`, `DynAny`): its intrinsic type
fingerprint and an integer payload. -/
structure DynAny where
  type_info : TypeInfo
  val : Int
deriving DecidableEq, Repr

/-- The `InsertErrorKind` of `tuple.rs`: either the value's runtime type is
not the one declared for the cell, or the index is out of range. -/
inductive InsertErrorKind where
  | typeMismatch (expected : Nat) (expected_name : String)
  | outOfRange
deriving DecidableEq, Repr

/-- The `InsertError` of `tuple.rs`: the kind plus the value handed back. -/
structure InsertError where
  kind : InsertErrorKind
  value : DynAny
deriving DecidableEq, Repr

/-- The `TakeError` of `tuple.rs`: the first missing input's index. -/
structure TakeError where
  index : Nat
deriving DecidableEq, Repr

/-- `TupleOption::first_none`: index of the first empty cell, or `none` when
the buffer is full. -/
def firstNone : List (Option DynAny) → Option Nat
  | [] => none
  | none :: _ => some 0
  | some _ :: rest => (firstNone rest).map (· + 1)

/-- `TupleOption::insert` for a slot buffer whose cells are declared with the
types `tys` (the per-arity `impl`s of `tuple.rs`, arity-generically): out of
range when the index has no declared cell, a downcast check of the incoming
value's fingerprint against the cell's declared type, and on success the
value is stored in cell `index`. On error the buffer is unchanged and the
value is handed back inside the error. -/
def insertCell (tys : List TypeInfo) (cells : List (Option DynAny)) (index : Nat)
    (value : DynAny) : Except InsertError (List (Option DynAny)) :=
  match tys[index]? with
  | none => .error ⟨.outOfRange, value⟩
  | some ty =>
    if value.type_info.id = ty.id then .ok (cells.set index (some value))
    else .error ⟨.typeMismatch ty.id ty.name, value⟩

/-- `TupleOption::take`: all values by move when every cell is filled,
otherwise the index of the first empty cell. -/
def takeCells (cells : List (Option DynAny)) : Except TakeError (List DynAny) :=
  match firstNone cells with
  | some index => .error ⟨index⟩
  | none => .ok cells.reduceOption

/-- A task (`task.rs`, `TryTask`): declared input fingerprints, the success
output fingerprint, and the consume-and-run operation. -/
structure Task (Err : Type) where
  inputs : List TypeInfo
  output : TypeInfo
  run : List DynAny → Except Err Int

/-- A curried task (`curry.rs`, `CurriedTask`): the task plus its slot
buffer. -/
structure CurriedTask (Err : Type) where
  task : Task Err
  cells : List (Option DynAny)

namespace CurriedTask

/-- `CurriedTask::new`: a task with all input cells empty. -/
def new (task : Task Err) : CurriedTask Err :=
  ⟨task, List.replicate task.inputs.length none⟩

/-- `Curry::num_inputs`: the arity of the inner task. -/
def num_inputs (c : CurriedTask Err) : Nat :=
  c.task.inputs.length

/-- `Curry::input_type_info`: declared fingerprint of input `index`, `none`
when out of range. -/
def input_type_info (c : CurriedTask Err) (index : Nat) : Option TypeInfo :=
  c.task.inputs[index]?

/-- `Curry::output_type_info`: declared fingerprint of the success output. -/
def output_type_info (c : CurriedTask Err) : TypeInfo :=
  c.task.output

/-- `Curry::ready`: every input cell is filled. -/
def ready (c : CurriedTask Err) : Bool :=
  (firstNone c.cells).isNone

/-- `Curry::curry`: insert one input into the slot buffer. -/
def curry (c : CurriedTask Err) (index : Nat) (value : DynAny) :
    Except InsertError (CurriedTask Err) :=
  (insertCell c.task.inputs c.cells index value).map fun cs => { c with cells := cs }

/-- `Curry::call`: drain the buffer, run the task, and erase the successful
output (`make_any` gives it the task's declared output fingerprint). The
result of the future is determined here because the model's tasks are pure. -/
def call (c : CurriedTask Err) : Except TakeError (Except Err DynAny) :=
  (takeCells c.cells).map fun inputs =>
    (c.task.run inputs).map fun v => ⟨c.task.output, v⟩

end CurriedTask

/-- A graph node (`graph.rs`, `Node`): a pending curried task, a running node
remembering only its output fingerprint, or the completed output value. -/
inductive Node (Err : Type) where
  | curry (c : CurriedTask Err)
  | running (ti : TypeInfo)
  | value (v : DynAny) (ti : TypeInfo)

/-- A directed edge of the `daggy::Dag`: from the producer node to the
consumer node, weighted with the consumer's input slot index. -/
structure EdgeRec where
  source : Nat
  target : Nat
  slot : Nat
deriving DecidableEq, Repr

/-- Lookup in the `dependencies` map `(child, slot) → edge index`
(`HashMap::get`); modelled as an association list whose keys are unique. -/
def depsLookup (deps : List ((Nat × Nat) × Nat)) (k : Nat × Nat) : Option Nat :=
  (deps.find? fun p => p.1 = k).map (·.2)

/-- Removal from the `dependencies` map (`HashMap::remove`). -/
def depsRemove (deps : List ((Nat × Nat) × Nat)) (k : Nat × Nat) :
    List ((Nat × Nat) × Nat) :=
  deps.filter fun p => p.1 ≠ k

/-- `petgraph` edge removal by index: the last edge is swapped into the
removed position (so the last edge index is invalidated). `none` when the
index does not denote an edge. -/
def removeEdgeAt (es : List EdgeRec) (i : Nat) : Option (List EdgeRec) :=
  match es.getLast? with
  | none => none
  | some last => if i < es.length then some ((es.set i last).dropLast) else none

/-- Bounded reachability along edges, as computed by
`petgraph::algo::has_path_connecting` inside `daggy::Dag::add_edge`: is there
a directed path (possibly empty) of at most `fuel` edges from `src` to
`tgt`? `daggy` passes the whole graph, so callers use the node count as
fuel, which is enough for exact reachability. -/
def reachb (es : List EdgeRec) : Nat → Nat → Nat → Bool
  | 0, src, tgt => src == tgt
  | fuel + 1, src, tgt =>
    src == tgt || es.any fun e => e.source == src && reachb es fuel e.target tgt

/-- `daggy::Dag::add_edge a b w`: refuses the edge (returning `WouldCycle`,
with the underlying graph unchanged) exactly when a path from `b` back to
`a` already exists; otherwise appends the edge and returns its index. -/
def dagAddEdge (nodeCount : Nat) (es : List EdgeRec) (a b slot : Nat) :
    Except Unit (Nat × List EdgeRec) :=
  if reachb es nodeCount b a then .error ()
  else .ok (es.length, es ++ [⟨a, b, slot⟩])

/-- The construction-time error taxonomy (`graph/error.rs`, `Error`). -/
inductive Error where
  | hasStarted (node : Nat)
  | outOfRange (len : Nat)
  | typeMismatch (input output : TypeInfo)
  | wouldCycle
deriving DecidableEq, Repr

/-- `graph/error.rs`, `ErrorWithTask`: an error plus the caller's task handed
back unconsumed. -/
structure ErrorWithTask (Err : Type) where
  error : Error
  task : Task Err

/-- `check_type_equality` (`graph.rs`): fingerprints must be identity-equal. -/
def check_type_equality (input output : TypeInfo) : Except Error Unit :=
  if input.id ≠ output.id then .error (.typeMismatch input output) else .ok ()

/-- The task DAG (`graph.rs`, `TryGraph`): the `daggy` node list and edge
list, plus the auxiliary `(child, slot) → edge index` map. -/
structure TryGraph (Err : Type) where
  nodes : List (Node Err)
  edges : List EdgeRec
  dependencies : List ((Nat × Nat) × Nat)

namespace TryGraph

/-- `TryGraph::new`: the empty graph. -/
def new : TryGraph Err := ⟨[], [], []⟩

/-- `TryGraph::output_type_info`: declared output fingerprint of a node, in
any of its three states; `none` models the `unwrap` panic on a missing
node. -/
def output_type_info (g : TryGraph Err) (index : Nat) : Option TypeInfo :=
  (g.nodes[index]?).map fun n =>
    match n with
    | .curry c => c.output_type_info
    | .running ti => ti
    | .value _ ti => ti

/-- `TryGraph::type_check`: the child must exist (else panic, the outer
`none`), be pending (else `HasStarted`), have a declared input at `index`
(else `OutOfRange` with the child's arity), and that input fingerprint must
equal `output` (else `TypeMismatch`). -/
def type_check (g : TryGraph Err) (child index : Nat) (output : TypeInfo) :
    Option (Except Error Unit) :=
  (g.nodes[child]?).map fun node =>
    match node with
    | .curry curry =>
      match curry.input_type_info index with
      | none => .error (.outOfRange curry.num_inputs)
      | some input => check_type_equality input output
    | _ => .error (.hasStarted child)

/-- `TryGraph::add_try_task` / `add_task`: append a fresh pending node and
return its index. -/
def add_try_task (g : TryGraph Err) (task : Task Err) : Nat × TryGraph Err :=
  (g.nodes.length, { g with nodes := g.nodes ++ [.curry (CurriedTask.new task)] })

/-- `TryGraph::remove_dependency`: drop the `(child, index)` entry from the
map and the corresponding edge from the dag, reporting whether one existed.
The outer `none` models the `assert!` panic when the stored edge index no
longer denotes an edge. -/
def remove_dependency (g : TryGraph Err) (child index : Nat) :
    Option (Bool × TryGraph Err) :=
  match depsLookup g.dependencies (child, index) with
  | none => some (false, g)
  | some edge =>
    match removeEdgeAt g.edges edge with
    | none => none
    | some es =>
      some (true, { g with
        edges := es
        dependencies := depsRemove g.dependencies (child, index) })

/-- `TryGraph::update_dependency`: type check (`HasStarted` / `OutOfRange` /
`TypeMismatch`), then remove any existing dependency of `child` at `index`,
then try to add the edge `parent → child` (else `WouldCycle`), recording it
in the map. Note the removal is not rolled back when `WouldCycle` is hit. -/
def update_dependency (g : TryGraph Err) (parent child index : Nat) :
    Option (Except Error Unit × TryGraph Err) :=
  match g.output_type_info parent with
  | none => none
  | some out =>
    match g.type_check child index out with
    | none => none
    | some (.error e) => some (.error e, g)
    | some (.ok ()) =>
      match g.remove_dependency child index with
      | none => none
      | some (_, g1) =>
        match dagAddEdge g1.nodes.length g1.edges parent child index with
        | .error () => some (.error .wouldCycle, g1)
        | .ok (edge, es) =>
          match depsLookup g1.dependencies (child, index) with
          | some _ => none
          | none =>
            some (.ok (), { g1 with
              edges := es
              dependencies := ((child, index), edge) :: g1.dependencies })

/-- `TryGraph::add_parent_try_task` / `add_parent_task`: type check against
the new task's output fingerprint; on error hand the task back unconsumed
with the graph untouched. On success remove any existing dependency at
`(child, index)`, then `daggy::add_parent`: append the new node and the edge
`new → child`, recording it in the map. -/
def add_parent_try_task (g : TryGraph Err) (task : Task Err) (child index : Nat) :
    Option (Except (ErrorWithTask Err) Nat × TryGraph Err) :=
  match g.type_check child index task.output with
  | none => none
  | some (.error e) => some (.error ⟨e, task⟩, g)
  | some (.ok ()) =>
    match g.remove_dependency child index with
    | none => none
    | some (_, g1) =>
      match depsLookup g1.dependencies (child, index) with
      | some _ => none
      | none =>
        some (.ok g1.nodes.length, {
          nodes := g1.nodes ++ [.curry (CurriedTask.new task)]
          edges := g1.edges ++ [⟨g1.nodes.length, child, index⟩]
          dependencies := ((child, index), g1.edges.length) :: g1.dependencies })

/-- `TryGraph::add_child_try_task` / `add_child_task`: the new task must have
a declared input at `index` (else `OutOfRange` with the new task's arity)
whose fingerprint equals the parent's output fingerprint (else
`TypeMismatch`); on error hand the task back with the graph untouched. On
success `daggy::add_child`: append the new node and the edge `parent → new`,
recording it in the map under `(new, index)`. -/
def add_child_try_task (g : TryGraph Err) (parent : Nat) (task : Task Err) (index : Nat) :
    Option (Except (ErrorWithTask Err) Nat × TryGraph Err) :=
  match task.inputs[index]? with
  | none => some (.error ⟨.outOfRange task.inputs.length, task⟩, g)
  | some input =>
    match g.output_type_info parent with
    | none => none
    | some out =>
      match check_type_equality input out with
      | .error e => some (.error ⟨e, task⟩, g)
      | .ok () =>
        match depsLookup g.dependencies (g.nodes.length, index) with
        | some _ => none
        | none =>
          some (.ok g.nodes.length, {
            nodes := g.nodes ++ [.curry (CurriedTask.new task)]
            edges := g.edges ++ [⟨parent, g.nodes.length, index⟩]
            dependencies := ((g.nodes.length, index), g.edges.length) :: g.dependencies })

/-- `TryGraph::get_value::<T>`: `none` (a panic) when the node does not
exist; otherwise a clone of the stored value when the node has completed and
the value's runtime fingerprint equals the requested one. -/
def get_value (g : TryGraph Err) (node : Nat) (ti : TypeInfo) : Option (Option Int) :=
  (g.nodes[node]?).map fun n =>
    match n with
    | .value v _ => if v.type_info.id = ti.id then some v.val else none
    | _ => none

end TryGraph

/-- An in-flight future tagged with its node (`runner.rs`, `RunningNode`).
Because the model's tasks are pure, the future's eventual result is carried
directly. -/
structure RunningNode (Err : Type) where
  index : Nat
  result : Except Err DynAny

/-- `call_node` (`runner.rs`): if the node holds a ready curry, take the task
out, call it (the `.unwrap()` on `call` is the outer `none`), leave the node
`Running` with the curry's output fingerprint, and hand the future back;
any other node is left unchanged. -/
def call_node (node : Node Err) : Option (Node Err × Option (Except Err DynAny)) :=
  match node with
  | .curry curry =>
    if curry.ready then
      match curry.call with
      | .error _ => none
      | .ok future => some (.running curry.output_type_info, some future)
    else some (.curry curry, none)
  | other => some (other, none)

/-- The driver state (`runner.rs`, `Runner`): the mutable node weights, the
frozen edge topology (`edge_graph` snapshot), and the in-flight set. -/
structure Runner (Err : Type) where
  nodes : List (Node Err)
  edges : List EdgeRec
  running : List (RunningNode Err)

/-- The node scan of `Runner::new`: visit nodes in index order (starting at
index `start`), call each ready one, and collect the created futures in
order. -/
def initCalls (nodes : List (Node Err)) (start : Nat) :
    Option (List (Node Err) × List (RunningNode Err)) :=
  match nodes with
  | [] => some ([], [])
  | n :: rest =>
    match call_node n with
    | none => none
    | some (n1, future?) =>
      (initCalls rest (start + 1)).map fun (ns, futures) =>
        (n1 :: ns,
         (match future? with
          | some result => [⟨start, result⟩]
          | none => []) ++ futures)

/-- `Runner::new`: start every already-ready pending node, then snapshot the
edge topology. -/
def Runner.new (g : TryGraph Err) : Option (Runner Err) :=
  (initCalls g.nodes 0).map fun (ns, futures) => ⟨ns, g.edges, futures⟩

/-- Fan-out of a completed node's output along its outgoing edges
(the edge loop of `Runner::step`): for each edge, if the consumer is still
pending, curry a clone of the output into the edge's slot (the `.unwrap()`
is the outer `none`); then `call_node` the consumer, collecting the futures
of consumers that became ready. Nodes are updated left to right. -/
def fanout (nodes : List (Node Err)) (outEdges : List EdgeRec) (output : DynAny) :
    Option (List (Node Err) × List (RunningNode Err)) :=
  match outEdges with
  | [] => some (nodes, [])
  | e :: rest =>
    match nodes[e.target]? with
    | none => none
    | some child =>
      let inserted : Option (Node Err) :=
        match child with
        | .curry curry => ((curry.curry e.slot output).map Node.curry).toOption
        | other => some other
      match inserted with
      | none => none
      | some child1 =>
        match call_node child1 with
        | none => none
        | some (child2, future?) =>
          (fanout (nodes.set e.target child2) rest output).map fun (ns, futures) =>
            (ns,
             match future? with
             | some result => ⟨e.target, result⟩ :: futures
             | none => futures)

/-- One step of `Runner::step`'s outcome: either the driver advanced, or a
task's error aborted the run (the remaining in-flight futures are dropped). -/
inductive StepResult (Err : Type) where
  | ok (r : Runner Err)
  | fail (e : Err) (r : Runner Err)

/-- `Runner::step`: await one completion among the in-flight set — the model
takes the selector's pick as the explicit `choice` (reduced modulo the set's
size; `select_all` on an empty set is the panic `none`). On a task error,
return it with the swapped-out in-flight set dropped. On success, fan the
output out to the dependents and finally transition the completed node from
`Running` to `Value` (a non-`Running` state there is the source's
`panic!`). -/
def Runner.step (r : Runner Err) (choice : Nat) : Option (StepResult Err) :=
  match r.running[choice % r.running.length]? with
  | none => none
  | some fut =>
    let rest := r.running.eraseIdx (choice % r.running.length)
    match fut.result with
    | .error e => some (.fail e ⟨r.nodes, r.edges, []⟩)
    | .ok output =>
      match fanout r.nodes (r.edges.filter fun e => e.source == fut.index) output with
      | none => none
      | some (nodes1, newFutures) =>
        match nodes1[fut.index]? with
        | some (.running ti) =>
          some (.ok ⟨nodes1.set fut.index (.value output ti), r.edges, rest ++ newFutures⟩)
        | _ => none

/-- `Runner::run`: step until the in-flight set is empty. The schedule lists
the selector's picks; it is `none` only if it is too short to finish the
run (every actual run of `n` nodes finishes within `n` steps). -/
def Runner.runLoop (r : Runner Err) : List Nat → Option (Except Err Unit × Runner Err)
  | [] => if r.running.isEmpty then some (.ok (), r) else none
  | c :: cs =>
    if r.running.isEmpty then some (.ok (), r)
    else
      match r.step c with
      | none => none
      | some (.fail e r1) => some (.error e, r1)
      | some (.ok r1) => r1.runLoop cs

/-- `TryGraph::try_run`: drive the graph with the given completion schedule;
the driver mutates the node weights in place and the error of the first
failing task aborts the run and is returned verbatim. -/
def TryGraph.try_run (g : TryGraph Err) (schedule : List Nat) :
    Option (Except Err Unit × TryGraph Err) :=
  match Runner.new g with
  | none => none
  | some r =>
    (r.runLoop schedule).map fun (res, r1) => (res, { g with nodes := r1.nodes })

/-- `Graph` (`graph/infallible.rs`): a `TryGraph` whose tasks cannot fail. -/
abbrev Graph := TryGraph Empty

/-- `Graph::run`: the infallible variant of `try_run`; the error branch is
statically unreachable. -/
def Graph.run (g : Graph) (schedule : List Nat) : Option Graph :=
  (g.try_run schedule).map fun (_, g1) => g1

/-! Concrete tasks used by the examples (`examples/fib.rs`): literal `1`
producers and the binary `sum`, all over `i32`. The fingerprint assigned to
`i32` is arbitrary but fixed. -/

/-- The model's fingerprint of Rust's `i32`. -/
def i32Ti : TypeInfo := ⟨1, "i32"⟩

/-- The zero-arity task `|| async { 1 }`. -/
def oneTask : Task Empty := ⟨[], i32Ti, fun _ => .ok 1⟩

/-- Two's-complement wraparound into the `i32` range `[-2^31, 2^31)`: the
release-profile behavior of Rust's `+` on overflow (a debug build panics
instead, so past `i32::MAX` the two profiles diverge; the fib theorems stay
on the overflow-free range, where they agree). -/
def wrap32 (x : Int) : Int := (x + 2147483648) % 4294967296 - 2147483648

/-- The binary task `sum(lhs, rhs) = lhs + rhs` over `i32`, its overflow
modelled as release-profile wraparound. -/
def sumTask : Task Empty :=
  ⟨[i32Ti, i32Ti], i32Ti, fun inputs =>
    .ok (wrap32 ((inputs.headD ⟨i32Ti, 0⟩).val + ((inputs.drop 1).headD ⟨i32Ti, 0⟩).val))⟩

/-- One iteration of the `examples/fib.rs` loop body:
`next = add_child_task(sum, first, 0)` then `update_dependency(second, next, 1)`. -/
def fibStep (g : Graph) (first second : Nat) : Option (Nat × Graph) :=
  match g.add_child_try_task first sumTask 0 with
  | some (.ok next, g1) =>
    match g1.update_dependency second next 1 with
    | some (.ok (), g2) => some (next, g2)
    | _ => none
  | _ => none

/-- The graph of `examples/fib.rs` after `n` loop iterations, together with
the current `first` and `second` node handles (two literal-1 nodes to start,
then `n` sum tasks each wired to the previous two). -/
def buildFib : Nat → Option (Nat × Nat × Graph)
  | 0 =>
    let (first, g1) := (TryGraph.new).add_try_task oneTask
    let (second, g2) := g1.add_try_task oneTask
    some (first, second, g2)
  | n + 1 =>
    match buildFib n with
    | none => none
    | some (first, second, g) =>
      (fibStep g first second).map fun (next, g1) => (second, next, g1)

/-- The full `examples/fib.rs` pipeline for parameter `N = n`: build the
ladder, `run` it (with the canonical completion schedule), and read
`get_value::<i32>` at the last node. -/
def fibResult (n : Nat) : Option Int :=
  match buildFib n with
  | none => none
  | some (_, second, g) =>
    match g.run (List.replicate (n + 3) 0) with
    | none => none
    | some g1 =>
      match g1.get_value second i32Ti with
      | some (some v) => some v
      | _ => none

/-! The closed forms of the states traversed by the fib example: the graph
shape after `n` loop iterations and the driver states of its run. -/

/-- The task held at node `i` of the fib ladder: the two seed literals, then
sums. -/
def fibTau : Nat → Task Empty := fun i => if i < 2 then oneTask else sumTask

/-- The node list after `n` iterations: `n + 2` pending nodes. -/
def fibNodes : Nat → List (Node Empty)
  | 0 => [.curry (CurriedTask.new oneTask), .curry (CurriedTask.new oneTask)]
  | n + 1 => fibNodes n ++ [.curry (CurriedTask.new sumTask)]

/-- The edge list after `n` iterations: numbering iterations from zero,
iteration `j` (for `j < n`) creates node `j + 2` and adds `j → j+2 @ 0`
(by `add_child`) then `j+1 → j+2 @ 1` (by `update_dependency`). -/
def fibEdges : Nat → List EdgeRec
  | 0 => []
  | n + 1 => fibEdges n ++ [⟨n, n + 2, 0⟩, ⟨n + 1, n + 2, 1⟩]

/-- The dependency map after `n` iterations (most recent first). -/
def fibDeps : Nat → List ((Nat × Nat) × Nat)
  | 0 => []
  | n + 1 => ((n + 2, 1), 2 * n + 1) :: ((n + 2, 0), 2 * n) :: fibDeps n

/-- The fib ladder after `n` iterations. -/
def fibGraph (n : Nat) : Graph := ⟨fibNodes n, fibEdges n, fibDeps n⟩

/-- The erased `i32` carrier of the `k`-th Fibonacci number. -/
def fibVal (k : Nat) : DynAny := ⟨i32Ti, (Nat.fib k : Int)⟩

/-- The node weights `Runner::new` leaves for the fib ladder: both seeds
started, every sum still pending. -/
def fibStartNodes (n : Nat) : List (Node Empty) :=
  (List.range (n + 2)).map fun k =>
    if k < 2 then .running i32Ti else .curry (CurriedTask.new sumTask)

/-- The driver state `Runner::new` produces for the fib ladder. -/
def fibStartState (n : Nat) : Runner Empty :=
  ⟨fibStartNodes n, fibEdges n, [⟨0, .ok (fibVal 1)⟩, ⟨1, .ok (fibVal 2)⟩]⟩

/-- The node weights just before the future of node `m` is awaited
(`1 ≤ m ≤ n + 1`): everything below `m` has completed with its Fibonacci
number, node `m + 1` already holds its first summand, later sums are
untouched. -/
def fibMidNodes (n m : Nat) : List (Node Empty) :=
  (List.range (n + 2)).map fun k =>
    if k < m then .value (fibVal (k + 1)) i32Ti
    else if k = m then .running i32Ti
    else if k = m + 1 then .curry ⟨sumTask, [some (fibVal m), none]⟩
    else .curry (CurriedTask.new sumTask)

/-- The driver state just before the future of node `m` is awaited. -/
def fibRunState (n m : Nat) : Runner Empty :=
  ⟨fibMidNodes n m, fibEdges n, [⟨m, .ok (fibVal (m + 1))⟩]⟩

/-- The node weights after the run: node `k` holds `F(k+1)`. -/
def fibFinalNodes (n : Nat) : List (Node Empty) :=
  (List.range (n + 2)).map fun k => .value (fibVal (k + 1)) i32Ti

/-- The driver state after the run. -/
def fibFinalState (n : Nat) : Runner Empty := ⟨fibFinalNodes n, fibEdges n, []⟩

/-! ### Graph-theoretic and invariant predicates used by the claims. -/

/-- A directed path (possibly empty) along the edge list. -/
inductive HasPath (es : List EdgeRec) : Nat → Nat → Prop where
  | refl (n : Nat) : HasPath es n n
  | tail {a b c w : Nat} : HasPath es a b → (⟨b, c, w⟩ : EdgeRec) ∈ es → HasPath es a c

/-- Acyclicity: no edge closes a directed path back to its source. -/
def Acyclic (es : List EdgeRec) : Prop :=
  ∀ e ∈ es, ¬ HasPath es e.target e.source

/-- Node `i` has completed (it is in the `Value` state). -/
def isValueAt (nodes : List (Node Err)) (i : Nat) : Prop :=
  ∃ v ti, nodes[i]? = some (.value v ti)

/-- Node `i` is in the `Running` state. -/
def isRunningAt (nodes : List (Node Err)) (i : Nat) : Prop :=
  ∃ ti, nodes[i]? = some (.running ti)

/-- Input cell `s` of a curried task is filled. -/
def cellFilled (c : CurriedTask Err) (s : Nat) : Prop :=
  ∃ v, c.cells[s]? = some (some v)

/-- The static well-formedness of a wiring, with `tau i` the task declared at
node `i`: every edge stays inside the node range, respects the
construction-time type check (its slot is declared by the consumer and the
fingerprints agree), and every `(consumer, slot)` has at most one incoming
edge (the data model's edge invariant). -/
structure WiringWF (N : Nat) (tau : Nat → Task Err) (es : List EdgeRec) : Prop where
  bounds : ∀ e ∈ es, e.source < N ∧ e.target < N
  typed : ∀ e ∈ es, ∃ ti, (tau e.target).inputs[e.slot]? = some ti ∧
    ti.id = (tau e.source).output.id
  uniqueSlot : ∀ e1 ∈ es, ∀ e2 ∈ es, e1.target = e2.target → e1.slot = e2.slot → e1 = e2

/-- A freshly constructed graph: every node is pending with an all-empty
slot buffer, holding the task `tau i`. -/
def Fresh (g : TryGraph Err) (tau : Nat → Task Err) : Prop :=
  ∀ i < g.nodes.length, g.nodes[i]? = some (.curry (CurriedTask.new (tau i)))

/-- Every declared input slot of every node is fed by some edge. -/
def FullyWired (N : Nat) (tau : Nat → Task Err) (es : List EdgeRec) : Prop :=
  ∀ i < N, ∀ s < (tau i).inputs.length, ∃ e ∈ es, e.target = i ∧ e.slot = s

/-- The driver's state invariant, relative to the static wiring. Pending
nodes still hold their declared task, are not ready, and their cell `s` is
filled exactly when the producer wired into `(i, s)` has completed; started
nodes have all producers completed; running nodes have their future
in-flight; in-flight futures point at running nodes, successful results
carry the declared output fingerprint, and no node has two futures. -/
structure Inv (N : Nat) (tau : Nat → Task Err) (es : List EdgeRec) (r : Runner Err) : Prop where
  edges_eq : r.edges = es
  nodes_len : r.nodes.length = N
  curry_inv : ∀ i c, r.nodes[i]? = some (.curry c) →
    c.task = tau i ∧ c.cells.length = (tau i).inputs.length ∧ c.ready = false ∧
    ∀ e ∈ es, e.target = i → (cellFilled c e.slot ↔ isValueAt r.nodes e.source)
  started_inv : ∀ i, (isRunningAt r.nodes i ∨ isValueAt r.nodes i) →
    ∀ e ∈ es, e.target = i → isValueAt r.nodes e.source
  running_inv : ∀ i, isRunningAt r.nodes i → ∃ fut ∈ r.running, fut.index = i
  fut_wf : ∀ fut ∈ r.running, fut.index < N ∧ isRunningAt r.nodes fut.index ∧
    ∀ v, fut.result = .ok v → v.type_info = (tau fut.index).output
  fut_nodup : (r.running.map RunningNode.index).Nodup

/-- The invariant holding in the middle of the fan-out loop of a step that
is completing node `p`: edges in `done` (outgoing from `p`) have already
been processed, and `p` itself is still `Running` (it becomes `Value` only
after the loop). -/
structure MidInv (N : Nat) (tau : Nat → Task Err) (es : List EdgeRec) (p : Nat)
    (done : List EdgeRec) (nodes : List (Node Err)) : Prop where
  len : nodes.length = N
  p_running : isRunningAt nodes p
  curry_inv : ∀ i c, nodes[i]? = some (.curry c) →
    c.task = tau i ∧ c.cells.length = (tau i).inputs.length ∧ c.ready = false ∧
    ∀ e ∈ es, e.target = i →
      (cellFilled c e.slot ↔ (isValueAt nodes e.source ∨ (e.source = p ∧ e ∈ done)))
  started_inv : ∀ i, (isRunningAt nodes i ∨ isValueAt nodes i) →
    ∀ e ∈ es, e.target = i → (isValueAt nodes e.source ∨ e.source = p)

/-- The graphs reachable from the empty graph through the public
construction operations, whatever their results (panicking calls produce no
graph and are excluded by construction). -/
inductive GraphReachable : TryGraph Err → Prop where
  | empty : GraphReachable TryGraph.new
  | add_task (g : TryGraph Err) (task : Task Err) :
      GraphReachable g → GraphReachable (g.add_try_task task).2
  | add_parent (g : TryGraph Err) (task : Task Err) (child index : Nat) (res) (g1) :
      GraphReachable g → g.add_parent_try_task task child index = some (res, g1) →
      GraphReachable g1
  | add_child (g : TryGraph Err) (parent : Nat) (task : Task Err) (index : Nat) (res) (g1) :
      GraphReachable g → g.add_child_try_task parent task index = some (res, g1) →
      GraphReachable g1
  | update_dep (g : TryGraph Err) (parent child index : Nat) (res) (g1) :
      GraphReachable g → g.update_dependency parent child index = some (res, g1) →
      GraphReachable g1
  | remove_dep (g : TryGraph Err) (child index : Nat) (b) (g1) :
      GraphReachable g → g.remove_dependency child index = some (b, g1) →
      GraphReachable g1

/-- The driver states reachable while running graph `g`: the state produced
by `Runner::new`, closed under successful steps (an erroring step aborts the
run, so nothing runs after it). -/
inductive RunnerReach (g : TryGraph Err) : Runner Err → Prop where
  | init (r : Runner Err) : Runner.new g = some r → RunnerReach g r
  | step (r : Runner Err) (choice : Nat) (r1 : Runner Err) :
      RunnerReach g r → r.step choice = some (.ok r1) → RunnerReach g r1

/-! ### Concrete tasks and graphs used by counterexamples and witnesses. -/

/-- A fingerprint distinct from `i32Ti`, for the generic-error tests. -/
def tyA : TypeInfo := ⟨10, "A"⟩

/-- A second distinct fingerprint. -/
def tyB : TypeInfo := ⟨11, "B"⟩

/-- A zero-arity task producing an `A`. -/
def taskA0 : Task Unit := ⟨[], tyA, fun _ => .ok 0⟩

/-- A unary task `A → A`. -/
def taskA1 : Task Unit := ⟨[tyA], tyA, fun _ => .ok 0⟩

/-- A zero-arity task that always fails. -/
def taskFail : Task Unit := ⟨[], tyA, fun _ => .error ()⟩

/-- The pre-call graph of the C1 counterexample: three pending nodes with
edges `0 → 1 @ 0` and `1 → 2 @ 0` (as produced by `add_try_task taskA0`,
`add_child_try_task 0 taskA1 0`, `add_child_try_task 1 taskA1 0`). -/
def c1Graph : TryGraph Unit :=
  ⟨[.curry (CurriedTask.new taskA0), .curry (CurriedTask.new taskA1),
    .curry (CurriedTask.new taskA1)],
   [⟨0, 1, 0⟩, ⟨1, 2, 0⟩],
   [((2, 0), 1), ((1, 0), 0)]⟩

/-- The graph actually left behind by the `WouldCycle` failure of
`update_dependency 2 1 0` on `c1Graph`: the pre-existing edge `0 → 1 @ 0`
has been removed and not restored. -/
def c1GraphAfter : TryGraph Unit :=
  ⟨c1Graph.nodes, [⟨1, 2, 0⟩], [((2, 0), 1)]⟩

/-- The construction-time type agreement for one edge: the consumer is a
pending node whose declared input fingerprint at the edge's slot equals the
producer's declared output fingerprint. -/
def EdgeTyped (g : TryGraph Err) (e : EdgeRec) : Prop :=
  ∃ c ti out, g.nodes[e.target]? = some (.curry c) ∧
    c.input_type_info e.slot = some ti ∧
    g.output_type_info e.source = some out ∧ ti.id = out.id

/-- A two-node reachable graph (`add_try_task taskA0` then
`add_child_try_task 0 taskA1 0`), used as a concrete witness. -/
def c6Graph : TryGraph Unit :=
  ⟨[.curry (CurriedTask.new taskA0), .curry (CurriedTask.new taskA1)],
   [⟨0, 1, 0⟩], [((1, 0), 0)]⟩

/-- A driver state whose single in-flight future fails: the state
`Runner::new` produces for a graph holding only `taskFail`. -/
def failRunner : Runner Unit := ⟨[.running tyA], [], [⟨0, .error ()⟩]⟩

/-- The frame conditions of one fan-out pass: completed and running nodes
are untouched, no node completes, every node that started is accounted for
by exactly one new future, and every new future belongs to a node that was
pending before and is running after, with a result of the declared output
fingerprint. -/
structure FanoutPost (N : Nat) (tau : Nat → Task Err) (nodes nodes2 : List (Node Err))
    (futures : List (RunningNode Err)) : Prop where
  val_pres : ∀ (i : Nat) (v : DynAny) (ti : TypeInfo), nodes[i]? = some (.value v ti) →
    nodes2[i]? = some (.value v ti)
  run_pres : ∀ (i : Nat) (ti : TypeInfo), nodes[i]? = some (.running ti) →
    nodes2[i]? = some (.running ti)
  val_back : ∀ i, isValueAt nodes2 i → isValueAt nodes i
  run_back : ∀ i, isRunningAt nodes2 i → isRunningAt nodes i ∨ ∃ fut ∈ futures, fut.index = i
  fut_new : ∀ fut ∈ futures, fut.index < N ∧ (∃ c, nodes[fut.index]? = some (.curry c)) ∧
    isRunningAt nodes2 fut.index ∧
    ∀ v, fut.result = .ok v → v.type_info = (tau fut.index).output
  new_nodup : (futures.map RunningNode.index).Nodup

/-- The task assignment of `c6Graph`: a literal `A` at node `0` and the
unary `A → A` task everywhere else. -/
def c6Tau : Nat → Task Unit := fun i => if i = 0 then taskA0 else taskA1

/-- A graph with a single pending unary node and no edge feeding its input
slot: it can never become ready. -/
def c2Gap : TryGraph Unit := ⟨[.curry (CurriedTask.new taskA1)], [], []⟩

/-- The graph left behind by a successful run of `c6Graph`: both nodes have
completed with the value `0` of type `A`. -/
def c2After : TryGraph Unit :=
  ⟨[.value ⟨tyA, 0⟩ tyA, .value ⟨tyA, 0⟩ tyA], [⟨0, 1, 0⟩], [((1, 0), 0)]⟩

/-- The driver state `Runner::new` produces for `c6Graph`: the literal node
has been started, the consumer is still pending. -/
def c7StartRunner : Runner Unit :=
  ⟨[.running tyA, .curry (CurriedTask.new taskA1)], [⟨0, 1, 0⟩], [⟨0, .ok ⟨tyA, 0⟩⟩]⟩

/-- The driver state after the literal node of `c6Graph` completes: its
output has been curried into the consumer, which is now running. -/
def c7MidRunner : Runner Unit :=
  ⟨[.value ⟨tyA, 0⟩ tyA, .running tyA], [⟨0, 1, 0⟩], [⟨1, .ok ⟨tyA, 0⟩⟩]⟩

/-! ### Shared helper lemmas. -/

theorem get?_set_self {α : Type _} {l : List α} {i : Nat} (a : α) (h : i < l.length) :
    (l.set i a)[i]? = some a :=
  List.getElem?_set_self h

theorem get?_isSome_of_lt {α : Type _} {l : List α} {i : Nat} (h : i < l.length) :
    ∃ a, l[i]? = some a :=
  ⟨l[i], List.getElem?_eq_some_iff.mpr ⟨h, rfl⟩⟩

theorem lt_of_get?_eq_some {α : Type _} {l : List α} {i : Nat} {a : α}
    (h : l[i]? = some a) : i < l.length := by
  rcases List.getElem?_eq_some_iff.mp h with ⟨h, _⟩
  exact h

theorem mem_of_get?_eq_some {α : Type _} {l : List α} {i : Nat} {a : α}
    (h : l[i]? = some a) : a ∈ l :=
  List.mem_iff_getElem?.mpr ⟨i, h⟩

theorem mem_of_getLast?_eq_some {α : Type _} {l : List α} {a : α}
    (h : l.getLast? = some a) : a ∈ l := by
  induction l with
  | nil => simp [List.getLast?] at h
  | cons x xs ih =>
    cases hxs : xs with
    | nil => subst hxs; simp [List.getLast?] at h; simp [h]
    | cons y ys =>
      subst hxs
      rw [List.getLast?_cons_cons] at h
      exact List.mem_cons_of_mem x (ih h)

/-- The element list of a swap-removal is contained in the original. -/
theorem removeEdgeAt_subset {es es2 : List EdgeRec} {i : Nat}
    (h : removeEdgeAt es i = some es2) : ∀ e ∈ es2, e ∈ es := by
  cases hlast : es.getLast? with
  | none => simp [removeEdgeAt, hlast] at h
  | some last =>
    by_cases hi : i < es.length
    · simp only [removeEdgeAt, hlast, if_pos hi, Option.some.injEq] at h
      intro e he
      rw [← h] at he
      have h1 : e ∈ (es.set i last) := (List.dropLast_sublist _).subset he
      rcases List.mem_or_eq_of_mem_set h1 with h2 | h2
      · exact h2
      · exact h2 ▸ mem_of_getLast?_eq_some hlast
    · simp [removeEdgeAt, hlast, hi] at h

/-- Paths are monotone under edge-set inclusion. -/
theorem HasPath.mono {es1 es2 : List EdgeRec} (hsub : ∀ e ∈ es1, e ∈ es2) {a b : Nat}
    (h : HasPath es1 a b) : HasPath es2 a b := by
  induction h with
  | refl => exact .refl _
  | tail _ hmem ih => exact .tail ih (hsub _ hmem)

/-- Acyclicity is preserved when edges are removed. -/
theorem Acyclic.anti {es1 es2 : List EdgeRec} (hsub : ∀ e ∈ es1, e ∈ es2)
    (h : Acyclic es2) : Acyclic es1 :=
  fun e he hp => h e (hsub e he) (hp.mono hsub)

/-- `remove_dependency` never touches the node list. -/
theorem remove_dependency_nodes {g : TryGraph Err} {child index : Nat} {b : Bool}
    {g1 : TryGraph Err} (h : g.remove_dependency child index = some (b, g1)) :
    g1.nodes = g.nodes := by
  cases hdep : depsLookup g.dependencies (child, index) with
  | none =>
    simp only [TryGraph.remove_dependency, hdep, Option.some.injEq, Prod.mk.injEq] at h
    rw [← h.2]
  | some edge =>
    cases hrem : removeEdgeAt g.edges edge with
    | none => simp [TryGraph.remove_dependency, hdep, hrem] at h
    | some es =>
      simp only [TryGraph.remove_dependency, hdep, hrem, Option.some.injEq,
        Prod.mk.injEq] at h
      rw [← h.2]

/-- The edges left by `remove_dependency` are a subset of the originals. -/
theorem remove_dependency_edges_subset {g : TryGraph Err} {child index : Nat} {b : Bool}
    {g1 : TryGraph Err} (h : g.remove_dependency child index = some (b, g1)) :
    ∀ e ∈ g1.edges, e ∈ g.edges := by
  cases hdep : depsLookup g.dependencies (child, index) with
  | none =>
    simp only [TryGraph.remove_dependency, hdep, Option.some.injEq, Prod.mk.injEq] at h
    rw [← h.2]
    exact fun e he => he
  | some edge =>
    cases hrem : removeEdgeAt g.edges edge with
    | none => simp [TryGraph.remove_dependency, hdep, hrem] at h
    | some es =>
      simp only [TryGraph.remove_dependency, hdep, hrem, Option.some.injEq,
        Prod.mk.injEq] at h
      rw [← h.2]
      exact removeEdgeAt_subset hrem

/-! ### Claim theorems: slot buffer and value lookup. -/

/-- C5: for a slot buffer of arity `N` (declared cell types `tys`, cells in
bijection with them), `insert i v` fails with `OutOfRange` exactly when
`i ≥ N`; fails with `TypeMismatch` — reporting cell `i`'s declared
fingerprint and name — exactly when `i < N` (so a declared type `ty` exists
at `i`) and `v`'s runtime fingerprint differs from it; and otherwise
succeeds, storing `v` in cell `i` and leaving every other cell unchanged.
The model's `insertCell` returns the updated buffer only on success, which
is the source's guarantee that on error the buffer is exactly as before. -/
theorem c5_insert_characterization (tys : List TypeInfo) (cells : List (Option DynAny))
    (i : Nat) (v : DynAny) (hlen : cells.length = tys.length) :
    (insertCell tys cells i v = .error ⟨.outOfRange, v⟩ ↔ tys.length ≤ i) ∧
    (∀ ty, tys[i]? = some ty →
      (insertCell tys cells i v = .error ⟨.typeMismatch ty.id ty.name, v⟩ ↔
        v.type_info.id ≠ ty.id)) ∧
    (∀ ty, tys[i]? = some ty → v.type_info.id = ty.id →
      insertCell tys cells i v = .ok (cells.set i (some v)) ∧
      (cells.set i (some v))[i]? = some (some v) ∧
      ∀ j, j ≠ i → (cells.set i (some v))[j]? = cells[j]?) := by
  refine ⟨?_, ?_, ?_⟩
  · cases hty : tys[i]? with
    | none =>
      exact iff_of_true (by simp [insertCell, hty]) (List.getElem?_eq_none_iff.mp hty)
    | some ty =>
      simp only [insertCell, hty]
      constructor
      · intro h
        by_cases hid : v.type_info.id = ty.id <;> simp [hid] at h
      · intro h
        exact absurd hty (by simp [List.getElem?_eq_none h])
  · intro ty hty
    simp only [insertCell, hty]
    constructor
    · intro h hid
      simp [hid] at h
    · intro hid
      simp [hid]
  · intro ty hty hid
    refine ⟨by simp [insertCell, hty, hid], ?_, ?_⟩
    · exact get?_set_self _ (hlen ▸ lt_of_get?_eq_some hty)
    · intro j hj
      exact List.getElem?_set_ne (fun h => hj h.symm)

/-- C10: `get_value` panics (the model's `none`) exactly on node indices
outside the graph; on an index inside the graph it never panics, and it
returns a value exactly when the node has completed (`Value` state) and the
stored value's runtime fingerprint is the requested one, in which case the
value is the stored payload. -/
theorem c10_get_value_characterization (g : TryGraph Err) (node : Nat) (ti : TypeInfo) :
    (g.get_value node ti = none ↔ g.nodes.length ≤ node) ∧
    ∀ x : Int, (g.get_value node ti = some (some x) ↔
      ∃ v t, g.nodes[node]? = some (.value v t) ∧ v.type_info.id = ti.id ∧ x = v.val) := by
  cases hn : g.nodes[node]? with
  | none =>
    constructor
    · exact iff_of_true (by simp [TryGraph.get_value, hn])
        (List.getElem?_eq_none_iff.mp hn)
    · intro x
      simp only [TryGraph.get_value, hn, Option.map_none']
      constructor
      · intro h; exact absurd h (by simp)
      · rintro ⟨v, t, hv, -, -⟩
        simp at hv
  | some n =>
    constructor
    · simp only [TryGraph.get_value, hn, Option.map_some']
      constructor
      · intro h; exact absurd h (by simp)
      · intro h
        exact absurd hn (by simp [List.getElem?_eq_none h])
    · intro x
      simp only [TryGraph.get_value, hn, Option.map_some']
      cases n with
      | curry c =>
        constructor
        · intro h; simp at h
        · rintro ⟨v, t, hv, -, -⟩
          simp at hv
      | running t =>
        constructor
        · intro h; simp at h
        · rintro ⟨v, t2, hv, -, -⟩
          simp at hv
      | value v t =>
        by_cases hid : v.type_info.id = ti.id
        · simp only [hid, if_pos rfl]
          constructor
          · intro h
            simp at h
            exact ⟨v, t, rfl, hid, h.symm⟩
          · rintro ⟨v2, t2, hv, -, hx⟩
            simp at hv
            simp [hx, hv.1]
        · simp only [if_neg hid]
          constructor
          · intro h; simp at h
          · rintro ⟨v2, t2, hv, hid2, -⟩
            simp at hv
            rw [hv.1] at hid
            exact absurd hid2 hid

/-- C4: `add_parent` on an existing child validates in order — `HasStarted
child` when the child is not pending (whether `Running` or `Value`);
otherwise `OutOfRange` carrying the child's arity when the slot is not
declared (`num_inputs ≤ index`); otherwise `TypeMismatch` carrying the
child's declared input fingerprint and the new task's output fingerprint
when they differ — and on every one of these errors the result carries the
caller's task back unconsumed and the graph (nodes, edges and dependency
index) is returned exactly as it was. When all three checks pass, no error
is ever returned (`add_parent_try_task` and the infallible
`add_parent_task` are the same model function). -/
theorem c4_add_parent_errors (g : TryGraph Err) (task : Task Err) (child index : Nat) :
    (∀ ti, g.nodes[child]? = some (.running ti) →
      g.add_parent_try_task task child index = some (.error ⟨.hasStarted child, task⟩, g)) ∧
    (∀ v ti, g.nodes[child]? = some (.value v ti) →
      g.add_parent_try_task task child index = some (.error ⟨.hasStarted child, task⟩, g)) ∧
    (∀ c, g.nodes[child]? = some (.curry c) → c.num_inputs ≤ index →
      g.add_parent_try_task task child index =
        some (.error ⟨.outOfRange c.num_inputs, task⟩, g)) ∧
    (∀ c ti, g.nodes[child]? = some (.curry c) → c.input_type_info index = some ti →
      ti.id ≠ task.output.id →
      g.add_parent_try_task task child index =
        some (.error ⟨.typeMismatch ti task.output, task⟩, g)) ∧
    (∀ c ti, g.nodes[child]? = some (.curry c) → c.input_type_info index = some ti →
      ti.id = task.output.id →
      ∀ ewt g1, g.add_parent_try_task task child index ≠ some (.error ewt, g1)) := by
  refine ⟨?_, ?_, ?_, ?_, ?_⟩
  · intro ti h
    simp [TryGraph.add_parent_try_task, TryGraph.type_check, h]
  · intro v ti h
    simp [TryGraph.add_parent_try_task, TryGraph.type_check, h]
  · intro c h harity
    have hnone : c.input_type_info index = none := by
      simp only [CurriedTask.input_type_info]
      exact List.getElem?_eq_none harity
    simp [TryGraph.add_parent_try_task, TryGraph.type_check, h, hnone]
  · intro c ti h hin hne
    simp [TryGraph.add_parent_try_task, TryGraph.type_check, h, hin,
      check_type_equality, hne]
  · intro c ti h hin heq
    simp only [TryGraph.add_parent_try_task, TryGraph.type_check, h, hin,
      check_type_equality, heq, ne_eq, not_true_eq_false, if_false, Option.map_some']
    cases hrem : g.remove_dependency child index with
    | none => simp
    | some p =>
      cases p with
      | mk b g1 =>
        simp only
        cases hdep : depsLookup g1.dependencies (child, index) with
        | none => simp
        | some e => simp

/-- `type_check` can only produce `HasStarted`, `OutOfRange` or
`TypeMismatch`, never `WouldCycle`. -/
theorem type_check_no_cycle {g : TryGraph Err} {child index : Nat} {out : TypeInfo}
    (h : g.type_check child index out = some (.error .wouldCycle)) : False := by
  cases hn : g.nodes[child]? with
  | none => simp [TryGraph.type_check, hn] at h
  | some n =>
    cases n with
    | curry c =>
      cases hin : c.input_type_info index with
      | none => simp [TryGraph.type_check, hn, hin] at h
      | some ti =>
        simp only [TryGraph.type_check, hn, hin, check_type_equality,
          Option.some.injEq] at h
        by_cases hid : ti.id = out.id <;> simp [hin, hid] at h
    | running ti => simp [TryGraph.type_check, hn] at h
    | value v ti => simp [TryGraph.type_check, hn] at h

/-- C1 (amended): when `update_dependency` returns `WouldCycle`, the node
list is exactly the pre-call one and the whole resulting graph is exactly
the pre-call graph after `remove_dependency child index` — so a pre-existing
edge at `(child, index)` has been removed from both the DAG and the
dependency index and is not restored; when no edge existed there, the graph
is unchanged. The graph stays acyclic. (The claim's assertion that the graph
is byte-identical — in particular that an existing edge at `(child, slot)`
survives — is refuted by `c1_counterexample`.) -/
theorem c1_would_cycle_state (g : TryGraph Err) (parent child index : Nat)
    (g1 : TryGraph Err)
    (h : g.update_dependency parent child index = some (.error .wouldCycle, g1)) :
    g1.nodes = g.nodes ∧
    (∃ b, g.remove_dependency child index = some (b, g1)) ∧
    (depsLookup g.dependencies (child, index) = none → g1 = g) ∧
    (Acyclic g.edges → Acyclic g1.edges) := by
  cases hout : g.output_type_info parent with
  | none => simp [TryGraph.update_dependency, hout] at h
  | some out =>
    cases htc : g.type_check child index out with
    | none => simp [TryGraph.update_dependency, hout, htc] at h
    | some res =>
      cases res with
      | error e =>
        simp only [TryGraph.update_dependency, hout, htc] at h
        have h1 := Option.some.inj h
        have he : e = Error.wouldCycle := Except.error.inj (congrArg Prod.fst h1)
        rw [he] at htc
        exact absurd htc (fun hc => type_check_no_cycle hc)
      | ok u =>
        cases u
        cases hrem : g.remove_dependency child index with
        | none => simp [TryGraph.update_dependency, hout, htc, hrem] at h
        | some p =>
          obtain ⟨b, gr⟩ := p
          cases hadd : dagAddEdge gr.nodes.length gr.edges parent child index with
          | error u2 =>
            cases u2
            simp only [TryGraph.update_dependency, hout, htc, hrem, hadd] at h
            have hg : gr = g1 := congrArg Prod.snd (Option.some.inj h)
            subst hg
            refine ⟨remove_dependency_nodes hrem, ⟨b, rfl⟩, ?_, ?_⟩
            · intro hnone
              simp only [TryGraph.remove_dependency, hnone, Option.some.injEq,
                Prod.mk.injEq] at hrem
              rw [← hrem.2]
            · exact fun hac => hac.anti (remove_dependency_edges_subset hrem)
          | ok pr =>
            obtain ⟨enew, es2⟩ := pr
            cases hdep : depsLookup gr.dependencies (child, index) with
            | some x =>
              simp [TryGraph.update_dependency, hout, htc, hrem, hadd, hdep] at h
            | none =>
              simp [TryGraph.update_dependency, hout, htc, hrem, hadd, hdep] at h

/-- C1 (counterexample): on the three-node chain `0 → 1 → 2` (edge
`0 → 1 @ 0` recorded at `(1, 0)`), `update_dependency 2 1 0` returns
`WouldCycle`, but the pre-existing edge `0 → 1 @ 0` — present in both the
DAG and the index before the call — is gone afterwards, so the graph is not
identical to the pre-call graph. -/
theorem c1_counterexample :
    c1Graph.update_dependency 2 1 0 = some (.error .wouldCycle, c1GraphAfter) ∧
    (⟨0, 1, 0⟩ : EdgeRec) ∈ c1Graph.edges ∧
    (⟨0, 1, 0⟩ : EdgeRec) ∉ c1GraphAfter.edges ∧
    depsLookup c1Graph.dependencies (1, 0) = some 0 ∧
    depsLookup c1GraphAfter.dependencies (1, 0) = none :=
  ⟨rfl, by decide, by decide, by decide, by decide⟩

/-- Witness for `c1_would_cycle_state` at the concrete counterexample
input. -/
theorem c1_would_cycle_state_witness :
    c1GraphAfter.nodes = c1Graph.nodes ∧
    (Acyclic c1Graph.edges → Acyclic c1GraphAfter.edges) := by
  have h := c1_would_cycle_state c1Graph 2 1 0 c1GraphAfter rfl
  exact ⟨h.1, h.2.2.2⟩

/-! ### Dissection lemmas for the construction operations (C6). -/

/-- A successful `type_check` exhibits the consumer's pending curry and the
agreeing input fingerprint. -/
theorem type_check_ok_shape {g : TryGraph Err} {child index : Nat} {out : TypeInfo}
    (h : g.type_check child index out = some (.ok ())) :
    ∃ c ti, g.nodes[child]? = some (.curry c) ∧ c.input_type_info index = some ti ∧
      ti.id = out.id := by
  cases hn : g.nodes[child]? with
  | none => simp [TryGraph.type_check, hn] at h
  | some n =>
    cases n with
    | curry c =>
      cases hin : c.input_type_info index with
      | none => simp [TryGraph.type_check, hn, hin] at h
      | some ti =>
        refine ⟨c, ti, rfl, hin, ?_⟩
        simp only [TryGraph.type_check, hn, hin, check_type_equality,
          Option.some.injEq] at h
        by_cases hid : ti.id = out.id
        · exact hid
        · simp [hin, hid] at h
    | running ti => simp [TryGraph.type_check, hn] at h
    | value v ti => simp [TryGraph.type_check, hn] at h

/-- On any error, `add_parent_try_task` returns the graph unchanged. -/
theorem add_parent_error_shape {g : TryGraph Err} {task : Task Err} {child index : Nat}
    {ewt : ErrorWithTask Err} {g1 : TryGraph Err}
    (h : g.add_parent_try_task task child index = some (.error ewt, g1)) :
    g1 = g ∧ ewt.task = task := by
  cases htc : g.type_check child index task.output with
  | none => simp [TryGraph.add_parent_try_task, htc] at h
  | some res =>
    cases res with
    | error e =>
      simp only [TryGraph.add_parent_try_task, htc] at h
      have h1 := Option.some.inj h
      injection h1 with hfst hsnd
      injection hfst with he
      exact ⟨hsnd.symm, by rw [← he]⟩
    | ok u =>
      cases u
      cases hrem : g.remove_dependency child index with
      | none => simp [TryGraph.add_parent_try_task, htc, hrem] at h
      | some p =>
        obtain ⟨b, gr⟩ := p
        cases hdep : depsLookup gr.dependencies (child, index) with
        | some x => simp [TryGraph.add_parent_try_task, htc, hrem, hdep] at h
        | none => simp [TryGraph.add_parent_try_task, htc, hrem, hdep] at h

/-- The successful `add_parent_try_task` appends the parent node and the
edge `new → child @ index` after removing any old dependency there. -/
theorem add_parent_ok_shape {g : TryGraph Err} {task : Task Err} {child index : Nat}
    {n : Nat} {g1 : TryGraph Err}
    (h : g.add_parent_try_task task child index = some (.ok n, g1)) :
    ∃ b gr, g.remove_dependency child index = some (b, gr) ∧
      g.type_check child index task.output = some (.ok ()) ∧ n = gr.nodes.length ∧
      g1 = ⟨gr.nodes ++ [.curry (CurriedTask.new task)],
            gr.edges ++ [⟨gr.nodes.length, child, index⟩],
            ((child, index), gr.edges.length) :: gr.dependencies⟩ := by
  cases htc : g.type_check child index task.output with
  | none => simp [TryGraph.add_parent_try_task, htc] at h
  | some res =>
    cases res with
    | error e => simp [TryGraph.add_parent_try_task, htc] at h
    | ok u =>
      cases u
      cases hrem : g.remove_dependency child index with
      | none => simp [TryGraph.add_parent_try_task, htc, hrem] at h
      | some p =>
        obtain ⟨b, gr⟩ := p
        cases hdep : depsLookup gr.dependencies (child, index) with
        | some x => simp [TryGraph.add_parent_try_task, htc, hrem, hdep] at h
        | none =>
          simp only [TryGraph.add_parent_try_task, htc, hrem, hdep] at h
          have h1 := Option.some.inj h
          have hn : n = gr.nodes.length :=
            (Except.ok.inj (congrArg Prod.fst h1)).symm
          exact ⟨b, gr, rfl, rfl, hn, (congrArg Prod.snd h1).symm⟩

/-- On any error, `add_child_try_task` returns the graph unchanged. -/
theorem add_child_error_shape {g : TryGraph Err} {parent : Nat} {task : Task Err}
    {index : Nat} {ewt : ErrorWithTask Err} {g1 : TryGraph Err}
    (h : g.add_child_try_task parent task index = some (.error ewt, g1)) :
    g1 = g ∧ ewt.task = task := by
  cases hin : task.inputs[index]? with
  | none =>
    simp only [TryGraph.add_child_try_task, hin] at h
    have h1 := Option.some.inj h
    injection h1 with hfst hsnd
    injection hfst with he
    exact ⟨hsnd.symm, by rw [← he]⟩
  | some input =>
    cases hout : g.output_type_info parent with
    | none => simp [TryGraph.add_child_try_task, hin, hout] at h
    | some out =>
      cases hcte : check_type_equality input out with
      | error e =>
        simp only [TryGraph.add_child_try_task, hin, hout, hcte] at h
        have h1 := Option.some.inj h
        injection h1 with hfst hsnd
        injection hfst with he
        exact ⟨hsnd.symm, by rw [← he]⟩
      | ok u =>
        cases u
        cases hdep : depsLookup g.dependencies (g.nodes.length, index) with
        | some x => simp [TryGraph.add_child_try_task, hin, hout, hcte, hdep] at h
        | none => simp [TryGraph.add_child_try_task, hin, hout, hcte, hdep] at h

/-- The successful `add_child_try_task` appends the child node and the edge
`parent → new @ index`. -/
theorem add_child_ok_shape {g : TryGraph Err} {parent : Nat} {task : Task Err}
    {index : Nat} {n : Nat} {g1 : TryGraph Err}
    (h : g.add_child_try_task parent task index = some (.ok n, g1)) :
    ∃ input out, task.inputs[index]? = some input ∧
      g.output_type_info parent = some out ∧ input.id = out.id ∧ n = g.nodes.length ∧
      g1 = ⟨g.nodes ++ [.curry (CurriedTask.new task)],
            g.edges ++ [⟨parent, g.nodes.length, index⟩],
            ((g.nodes.length, index), g.edges.length) :: g.dependencies⟩ := by
  cases hin : task.inputs[index]? with
  | none => simp [TryGraph.add_child_try_task, hin] at h
  | some input =>
    cases hout : g.output_type_info parent with
    | none => simp [TryGraph.add_child_try_task, hin, hout] at h
    | some out =>
      cases hcte : check_type_equality input out with
      | error e => simp [TryGraph.add_child_try_task, hin, hout, hcte] at h
      | ok u =>
        cases u
        cases hdep : depsLookup g.dependencies (g.nodes.length, index) with
        | some x => simp [TryGraph.add_child_try_task, hin, hout, hcte, hdep] at h
        | none =>
          simp only [TryGraph.add_child_try_task, hin, hout, hcte, hdep] at h
          have h1 := Option.some.inj h
          have hid : input.id = out.id := by
            by_cases hid : input.id = out.id
            · exact hid
            · simp [check_type_equality, hid] at hcte
          exact ⟨input, out, rfl, rfl, hid,
            (Except.ok.inj (congrArg Prod.fst h1)).symm, (congrArg Prod.snd h1).symm⟩

/-- The outcomes of `update_dependency`: on a type-check error the graph is
untouched; on `WouldCycle` it is the graph after the removal; on success it
is the graph after the removal plus the new edge `parent → child @ index`. -/
theorem update_dependency_shape {g : TryGraph Err} {parent child index : Nat}
    {res : Except Error Unit} {g1 : TryGraph Err}
    (h : g.update_dependency parent child index = some (res, g1)) :
    g1 = g ∨
    (∃ b gr, g.remove_dependency child index = some (b, gr) ∧
      (g1 = gr ∨
       (res = .ok () ∧
        (∃ out, g.output_type_info parent = some out ∧
          g.type_check child index out = some (.ok ())) ∧
        g1 = ⟨gr.nodes, gr.edges ++ [⟨parent, child, index⟩],
              ((child, index), gr.edges.length) :: gr.dependencies⟩))) := by
  cases hout : g.output_type_info parent with
  | none => simp [TryGraph.update_dependency, hout] at h
  | some out =>
    cases htc : g.type_check child index out with
    | none => simp [TryGraph.update_dependency, hout, htc] at h
    | some res2 =>
      cases res2 with
      | error e =>
        simp only [TryGraph.update_dependency, hout, htc] at h
        exact Or.inl (congrArg Prod.snd (Option.some.inj h)).symm
      | ok u =>
        cases u
        cases hrem : g.remove_dependency child index with
        | none => simp [TryGraph.update_dependency, hout, htc, hrem] at h
        | some p =>
          obtain ⟨b, gr⟩ := p
          refine Or.inr ⟨b, gr, rfl, ?_⟩
          cases hadd : dagAddEdge gr.nodes.length gr.edges parent child index with
          | error u2 =>
            cases u2
            simp only [TryGraph.update_dependency, hout, htc, hrem, hadd] at h
            exact Or.inl (congrArg Prod.snd (Option.some.inj h)).symm
          | ok pr =>
            obtain ⟨enew, es2⟩ := pr
            cases hdep : depsLookup gr.dependencies (child, index) with
            | some x =>
              simp [TryGraph.update_dependency, hout, htc, hrem, hadd, hdep] at h
            | none =>
              simp only [TryGraph.update_dependency, hout, htc, hrem, hadd, hdep] at h
              have h1 := Option.some.inj h
              have hres : res = .ok () := (congrArg Prod.fst h1).symm
              have hadd2 : enew = gr.edges.length ∧ es2 = gr.edges ++ [⟨parent, child, index⟩] := by
                by_cases hcyc : reachb gr.edges gr.nodes.length child parent = true
                · simp [dagAddEdge, hcyc] at hadd
                · simp only [dagAddEdge, Bool.not_eq_true] at hadd
                  rw [if_neg (by simp [hcyc])] at hadd
                  have h2 := Except.ok.inj hadd
                  exact ⟨(congrArg Prod.fst h2).symm, (congrArg Prod.snd h2).symm⟩
              refine Or.inr ⟨hres, ⟨out, rfl, htc⟩, ?_⟩
              injection h1 with hfst hsnd
              rw [← hsnd, hadd2.1, hadd2.2]

/-- Edge typing only depends on the node list. -/
theorem EdgeTyped.nodes_eq {g g1 : TryGraph Err} {e : EdgeRec} (h : EdgeTyped g e)
    (hn : g1.nodes = g.nodes) : EdgeTyped g1 e := by
  obtain ⟨c, ti, out, h1, h2, h3, h4⟩ := h
  refine ⟨c, ti, out, by rw [hn]; exact h1, h2, ?_, h4⟩
  simp only [TryGraph.output_type_info] at h3 ⊢
  rw [hn]
  exact h3

/-- Edge typing survives appending a node. -/
theorem EdgeTyped.append_node {g g1 : TryGraph Err} {e : EdgeRec} {x : Node Err}
    (h : EdgeTyped g e) (hn : g1.nodes = g.nodes ++ [x]) : EdgeTyped g1 e := by
  obtain ⟨c, ti, out, h1, h2, h3, h4⟩ := h
  have ht : e.target < g.nodes.length := lt_of_get?_eq_some h1
  simp only [TryGraph.output_type_info] at h3
  cases hs : g.nodes[e.source]? with
  | none => rw [hs] at h3; simp at h3
  | some n =>
    have hslt := lt_of_get?_eq_some hs
    refine ⟨c, ti, out, ?_, h2, ?_, h4⟩
    · rw [hn, List.getElem?_append_left ht]
      exact h1
    · simp only [TryGraph.output_type_info]
      rw [hn, List.getElem?_append_left hslt, hs]
      rw [hs] at h3
      exact h3

/-- C6: in every graph reachable through the public construction operations
(`add_task`, `add_parent`, `add_child`, `update_dependency`,
`remove_dependency`), every edge satisfies the type-agreement invariant: its
consumer is pending, the consumer's declared input fingerprint at the edge's
slot exists, and it equals the producer's declared output fingerprint. -/
theorem c6_edges_typed (g : TryGraph Err) (h : GraphReachable g) :
    ∀ e ∈ g.edges, EdgeTyped g e := by
  induction h with
  | empty => intro e he; simp [TryGraph.new] at he
  | add_task g0 task hg ih =>
    intro e he
    exact EdgeTyped.append_node
      (ih e (by simpa [TryGraph.add_try_task] using he)) rfl
  | add_parent g0 task child index res g1 hg heq ih =>
    cases res with
    | error ewt =>
      obtain ⟨hg1, -⟩ := add_parent_error_shape heq
      subst hg1
      exact ih
    | ok n =>
      obtain ⟨b, gr, hrem, htc, hn, hg1⟩ := add_parent_ok_shape heq
      obtain ⟨c, ti, hcur, hin, hid⟩ := type_check_ok_shape htc
      have hnodes : gr.nodes = g0.nodes := remove_dependency_nodes hrem
      have hsub := remove_dependency_edges_subset hrem
      have hchild : child < gr.nodes.length := by
        rw [hnodes]; exact lt_of_get?_eq_some hcur
      subst hg1
      intro e he
      rcases List.mem_append.mp he with he2 | he2
      · exact ((ih e (hsub e he2)).nodes_eq hnodes).append_node rfl
      · simp only [List.mem_singleton] at he2
        subst he2
        refine ⟨c, ti, task.output, ?_, hin, ?_, hid⟩
        · show (gr.nodes ++ [Node.curry (CurriedTask.new task)])[child]? = _
          rw [List.getElem?_append_left hchild, hnodes]
          exact hcur
        · simp only [TryGraph.output_type_info]
          rw [List.getElem?_concat_length]
          rfl
  | add_child g0 parent task index res g1 hg heq ih =>
    cases res with
    | error ewt =>
      obtain ⟨hg1, -⟩ := add_child_error_shape heq
      subst hg1
      exact ih
    | ok n =>
      obtain ⟨input, out, hin, hout, hid, hn, hg1⟩ := add_child_ok_shape heq
      subst hg1
      intro e he
      rcases List.mem_append.mp he with he2 | he2
      · exact (ih e he2).append_node rfl
      · simp only [List.mem_singleton] at he2
        subst he2
        have hparent : parent < g0.nodes.length := by
          simp only [TryGraph.output_type_info] at hout
          cases hs : g0.nodes[parent]? with
          | none => rw [hs] at hout; simp at hout
          | some nn => exact lt_of_get?_eq_some hs
        refine ⟨CurriedTask.new task, input, out, ?_, ?_, ?_, hid⟩
        · show (g0.nodes ++ [Node.curry (CurriedTask.new task)])[g0.nodes.length]? = _
          rw [List.getElem?_concat_length]
        · exact hin
        · simp only [TryGraph.output_type_info] at hout ⊢
          cases hs : g0.nodes[parent]? with
          | none => rw [hs] at hout; simp at hout
          | some nn =>
            show ((g0.nodes ++ _)[parent]?).map _ = _
            rw [List.getElem?_append_left hparent, hs]
            rw [hs] at hout
            exact hout
  | update_dep g0 parent child index res g1 hg heq ih =>
    rcases update_dependency_shape heq with hg1 | ⟨b, gr, hrem, hcase⟩
    · subst hg1; exact ih
    · have hnodes : gr.nodes = g0.nodes := remove_dependency_nodes hrem
      have hsub := remove_dependency_edges_subset hrem
      rcases hcase with hg1 | ⟨-, ⟨out, hout, htc⟩, hg1⟩
      · subst hg1
        intro e he
        exact (ih e (hsub e he)).nodes_eq hnodes
      · subst hg1
        intro e he
        rcases List.mem_append.mp he with he2 | he2
        · exact (ih e (hsub e he2)).nodes_eq hnodes
        · simp only [List.mem_singleton] at he2
          subst he2
          obtain ⟨c, ti, hcur, hin, hid⟩ := type_check_ok_shape htc
          refine ⟨c, ti, out, ?_, hin, ?_, hid⟩
          · show gr.nodes[child]? = _
            rw [hnodes]
            exact hcur
          · simp only [TryGraph.output_type_info] at hout ⊢
            show (gr.nodes[parent]?).map _ = _
            rw [hnodes]
            exact hout
  | remove_dep g0 child index b g1 hg heq ih =>
    intro e he
    exact (ih e (remove_dependency_edges_subset heq e he)).nodes_eq
      (remove_dependency_nodes heq)

/-- Witness for `c6_edges_typed`: the concrete two-node reachable graph
`c6Graph` has its single edge type-correct. -/
theorem c6_edges_typed_witness : EdgeTyped c6Graph ⟨0, 1, 0⟩ := by
  have hreach : GraphReachable c6Graph := by
    refine GraphReachable.add_child ((TryGraph.new).add_try_task taskA0).2 0 taskA1 0
      (.ok 1) c6Graph ?_ ?_
    · exact GraphReachable.add_task TryGraph.new taskA0 GraphReachable.empty
    · rfl
  exact c6_edges_typed c6Graph hreach ⟨0, 1, 0⟩ (by decide)

/-- C8: when the completion the driver awaits resolves to a task error `e`,
the step aborts: the loop returns exactly `e` with no wrapping, the node
weights are exactly as before the step — in particular the erroring node is
not transitioned to `Value` and remains `Running` — and the in-flight set is
dropped, so no further state transition or fan-out happens after the
error. -/
theorem c8_error_aborts (r : Runner Err) (choice : Nat) (cs : List Nat)
    (fut : RunningNode Err) (e : Err) (ti : TypeInfo)
    (hget : r.running[choice % r.running.length]? = some fut)
    (hres : fut.result = .error e)
    (hnode : r.nodes[fut.index]? = some (.running ti)) :
    r.step choice = some (.fail e ⟨r.nodes, r.edges, []⟩) ∧
    r.runLoop (choice :: cs) = some (.error e, ⟨r.nodes, r.edges, []⟩) ∧
    (⟨r.nodes, r.edges, []⟩ : Runner Err).nodes[fut.index]? = some (.running ti) := by
  have hne : r.running.isEmpty = false := by
    cases hr : r.running with
    | nil => rw [hr] at hget; simp at hget
    | cons a l => rfl
  have hstep : r.step choice = some (.fail e ⟨r.nodes, r.edges, []⟩) := by
    simp [Runner.step, hget, hres]
  refine ⟨hstep, ?_, hnode⟩
  simp [Runner.runLoop, hne, hstep]

/-- Witness for `c8_error_aborts` at the concrete one-failing-task driver
state. -/
theorem c8_error_aborts_witness :
    failRunner.runLoop [0] = some (.error (), ⟨failRunner.nodes, failRunner.edges, []⟩) ∧
    failRunner.nodes[0]? = some (.running tyA) :=
  ⟨(c8_error_aborts failRunner 0 [] ⟨0, .error ()⟩ () tyA rfl rfl rfl).2.1, rfl⟩

/-! ### Basic facts about slot buffers, `call_node` and lists. -/

theorem exceptMap_ok {ε α β : Type _} {x : Except ε α} {f : α → β} {v : β}
    (h : x.map f = .ok v) : ∃ w, x = .ok w ∧ v = f w := by
  cases x with
  | error e => simp [Except.map] at h
  | ok w => exact ⟨w, rfl, (Except.ok.inj h).symm⟩

theorem firstNone_eq_none_iff {cells : List (Option DynAny)} :
    firstNone cells = none ↔ ∀ i < cells.length, ∃ v, cells[i]? = some (some v) := by
  induction cells with
  | nil => simp [firstNone]
  | cons x rest ih =>
    cases x with
    | none =>
      simp only [firstNone]
      constructor
      · intro h; simp at h
      · intro h
        obtain ⟨v, hv⟩ := h 0 (by simp)
        simp at hv
    | some v =>
      simp only [firstNone, Option.map_eq_none']
      rw [ih]
      constructor
      · intro h i hi
        cases i with
        | zero => exact ⟨v, by simp⟩
        | succ j => simpa using h j (by simpa using hi)
      · intro h j hj
        have := h (j + 1) (by simpa using hj)
        simpa using this

theorem firstNone_eq_some {cells : List (Option DynAny)} {s : Nat}
    (h : firstNone cells = some s) : cells[s]? = some none := by
  induction cells generalizing s with
  | nil => simp [firstNone] at h
  | cons x rest ih =>
    cases x with
    | none =>
      simp only [firstNone, Option.some.injEq] at h
      subst h
      simp
    | some v =>
      simp only [firstNone, Option.map_eq_some'] at h
      obtain ⟨j, hj, hs⟩ := h
      subst hs
      simpa using ih hj

theorem takeCells_of_full {cells : List (Option DynAny)} (h : firstNone cells = none) :
    takeCells cells = .ok cells.reduceOption := by
  simp [takeCells, h]

theorem call_node_curry_ready {c : CurriedTask Err} (h : c.ready = true) :
    call_node (Node.curry c) =
      some (.running c.task.output,
        some ((c.task.run c.cells.reduceOption).map fun v => ⟨c.task.output, v⟩)) := by
  have hfn : firstNone c.cells = none := by
    simpa [CurriedTask.ready, Option.isNone_iff_eq_none] using h
  simp [call_node, h, CurriedTask.call, takeCells_of_full hfn,
    CurriedTask.output_type_info, Except.map]

theorem call_node_curry_not_ready {c : CurriedTask Err} (h : c.ready = false) :
    call_node (Node.curry c) = some (.curry c, none) := by
  simp [call_node, h]

theorem call_node_running (ti : TypeInfo) :
    call_node (Node.running ti : Node Err) = some (.running ti, none) := rfl

theorem call_node_value (v : DynAny) (ti : TypeInfo) :
    call_node (Node.value v ti : Node Err) = some (.value v ti, none) := rfl

/-- A fresh curried task is ready exactly when the task has no inputs. -/
theorem new_ready_iff (t : Task Err) :
    (CurriedTask.new t).ready = true ↔ t.inputs.length = 0 := by
  cases hl : t.inputs.length with
  | zero =>
    simp [CurriedTask.ready, CurriedTask.new, hl, List.replicate, firstNone]
  | succ k =>
    simp only [CurriedTask.ready, CurriedTask.new, hl, List.replicate, firstNone]
    simp

theorem eraseIdx_getElem?_mem {α : Type _} {l : List α} {k : Nat} {a : α}
    (h : a ∈ l.eraseIdx k) : a ∈ l :=
  List.mem_of_mem_eraseIdx h

/-- An element at a position other than the erased one survives `eraseIdx`. -/
theorem mem_eraseIdx_of_getElem? {α : Type _} {l : List α} {k i : Nat} {a : α}
    (hne : i ≠ k) (h : l[i]? = some a) : a ∈ l.eraseIdx k := by
  induction l generalizing k i with
  | nil => simp at h
  | cons x rest ih =>
    cases k with
    | zero =>
      cases i with
      | zero => exact absurd rfl hne
      | succ j =>
        simp only [List.eraseIdx]
        exact mem_of_get?_eq_some (by simpa using h)
    | succ k2 =>
      cases i with
      | zero =>
        simp only [List.getElem?_cons_zero, Option.some.injEq] at h
        subst h
        exact List.mem_cons_self _ _
      | succ j =>
        simp only [List.eraseIdx]
        exact List.mem_cons_of_mem x (@ih k2 j (fun hh => hne (by omega)) (by simpa using h))

/-! ### The initial scan of `Runner::new`. -/

theorem initCalls_go (nodes : List (Node Err)) (start : Nat) :
    ∃ ns futs, initCalls nodes start = some (ns, futs) ∧
      ns.length = nodes.length ∧
      (∀ i, i < nodes.length → ∃ n, nodes[i]? = some n ∧
        ((∃ c, n = .curry c ∧ c.ready = true ∧
            ns[i]? = some (.running c.task.output) ∧
            (⟨start + i, (c.task.run c.cells.reduceOption).map
                fun v => ⟨c.task.output, v⟩⟩ : RunningNode Err) ∈ futs) ∨
         ((∀ c, n = .curry c → c.ready = false) ∧ ns[i]? = some n))) ∧
      (∀ fut ∈ futs, ∃ i c, i < nodes.length ∧ fut.index = start + i ∧
        nodes[i]? = some (.curry c) ∧ c.ready = true ∧
        ns[i]? = some (.running c.task.output) ∧
        fut.result = (c.task.run c.cells.reduceOption).map fun v => ⟨c.task.output, v⟩) ∧
      (futs.map RunningNode.index).Nodup ∧
      (∀ fut ∈ futs, start ≤ fut.index) := by
  induction nodes generalizing start with
  | nil => exact ⟨[], [], rfl, rfl, by simp, by simp, by simp, by simp⟩
  | cons n rest ih =>
    obtain ⟨ns, futs, hinit, hlen, hpt, hfut, hnd, hge⟩ := ih (start + 1)
    cases n with
    | curry c =>
      by_cases hr : c.ready = true
      · refine ⟨.running c.task.output :: ns,
          ⟨start, (c.task.run c.cells.reduceOption).map fun v => ⟨c.task.output, v⟩⟩ :: futs,
          ?_, by simp [hlen], ?_, ?_, ?_, ?_⟩
        · simp [initCalls, call_node_curry_ready hr, hinit]
        · intro i hi
          cases i with
          | zero =>
            refine ⟨.curry c, by simp, Or.inl ⟨c, rfl, hr, by simp, ?_⟩⟩
            simp
          | succ j =>
            obtain ⟨n0, hn0, hcase⟩ := hpt j (by simpa using hi)
            refine ⟨n0, by simpa using hn0, ?_⟩
            rcases hcase with ⟨c2, he, hr2, hns, hmem⟩ | ⟨hnc, hns⟩
            · refine Or.inl ⟨c2, he, hr2, by simpa using hns, ?_⟩
              have harith : start + (j + 1) = start + 1 + j := by omega
              rw [harith]
              exact List.mem_cons_of_mem _ hmem
            · exact Or.inr ⟨hnc, by simpa using hns⟩
        · intro fut hf
          rcases List.mem_cons.mp hf with hf | hf
          · subst hf
            exact ⟨0, c, by simp, by simp, by simp, hr, by simp, rfl⟩
          · obtain ⟨i, c2, hi, hidx, hn2, hr2, hns, hres⟩ := hfut fut hf
            refine ⟨i + 1, c2, by simpa using hi, by omega, by simpa using hn2, hr2,
              by simpa using hns, hres⟩
        · rw [List.map_cons, List.nodup_cons]
          refine ⟨?_, hnd⟩
          intro hmem
          rcases List.mem_map.mp hmem with ⟨fut, hf, hidx⟩
          have h1 := hge fut hf
          have h2 : fut.index = start := by simpa using hidx
          omega
        · intro fut hf
          rcases List.mem_cons.mp hf with hf | hf
          · subst hf; exact Nat.le_refl _
          · have := hge fut hf; omega
      · have hr2 : c.ready = false := by simpa using hr
        refine ⟨.curry c :: ns, futs, ?_, by simp [hlen], ?_, ?_, hnd, ?_⟩
        · simp [initCalls, call_node_curry_not_ready hr2, hinit]
        · intro i hi
          cases i with
          | zero =>
            refine ⟨.curry c, by simp, Or.inr ⟨?_, by simp⟩⟩
            intro c2 he
            have : c2 = c := by injection he.symm
            rw [this]; exact hr2
          | succ j =>
            obtain ⟨n0, hn0, hcase⟩ := hpt j (by simpa using hi)
            refine ⟨n0, by simpa using hn0, ?_⟩
            rcases hcase with ⟨c2, he, hr3, hns, hmem⟩ | ⟨hnc, hns⟩
            · refine Or.inl ⟨c2, he, hr3, by simpa using hns, ?_⟩
              have harith : start + (j + 1) = start + 1 + j := by omega
              rw [harith]
              exact hmem
            · exact Or.inr ⟨hnc, by simpa using hns⟩
        · intro fut hf
          obtain ⟨i, c2, hi, hidx, hn2, hr3, hns, hres⟩ := hfut fut hf
          exact ⟨i + 1, c2, by simpa using hi, by omega, by simpa using hn2, hr3,
            by simpa using hns, hres⟩
        · intro fut hf
          have := hge fut hf; omega
    | running ti =>
      refine ⟨.running ti :: ns, futs, ?_, by simp [hlen], ?_, ?_, hnd, ?_⟩
      · simp [initCalls, call_node_running, hinit]
      · intro i hi
        cases i with
        | zero => exact ⟨.running ti, by simp, Or.inr ⟨(fun c2 he => nomatch he), by simp⟩⟩
        | succ j =>
          obtain ⟨n0, hn0, hcase⟩ := hpt j (by simpa using hi)
          refine ⟨n0, by simpa using hn0, ?_⟩
          rcases hcase with ⟨c2, he, hr3, hns, hmem⟩ | ⟨hnc, hns⟩
          · refine Or.inl ⟨c2, he, hr3, by simpa using hns, ?_⟩
            have harith : start + (j + 1) = start + 1 + j := by omega
            rw [harith]
            exact hmem
          · exact Or.inr ⟨hnc, by simpa using hns⟩
      · intro fut hf
        obtain ⟨i, c2, hi, hidx, hn2, hr3, hns, hres⟩ := hfut fut hf
        exact ⟨i + 1, c2, by simpa using hi, by omega, by simpa using hn2, hr3,
          by simpa using hns, hres⟩
      · intro fut hf
        have := hge fut hf; omega
    | value v ti =>
      refine ⟨.value v ti :: ns, futs, ?_, by simp [hlen], ?_, ?_, hnd, ?_⟩
      · simp [initCalls, call_node_value, hinit]
      · intro i hi
        cases i with
        | zero => exact ⟨.value v ti, by simp, Or.inr ⟨(fun c2 he => nomatch he), by simp⟩⟩
        | succ j =>
          obtain ⟨n0, hn0, hcase⟩ := hpt j (by simpa using hi)
          refine ⟨n0, by simpa using hn0, ?_⟩
          rcases hcase with ⟨c2, he, hr3, hns, hmem⟩ | ⟨hnc, hns⟩
          · refine Or.inl ⟨c2, he, hr3, by simpa using hns, ?_⟩
            have harith : start + (j + 1) = start + 1 + j := by omega
            rw [harith]
            exact hmem
          · exact Or.inr ⟨hnc, by simpa using hns⟩
      · intro fut hf
        obtain ⟨i, c2, hi, hidx, hn2, hr3, hns, hres⟩ := hfut fut hf
        exact ⟨i + 1, c2, by simpa using hi, by omega, by simpa using hn2, hr3,
          by simpa using hns, hres⟩
      · intro fut hf
        have := hge fut hf; omega

/-- A fresh slot buffer has no filled cell. -/
theorem cellFilled_new {t : Task Err} {s : Nat} : ¬ cellFilled (CurriedTask.new t) s := by
  rintro ⟨v, hv⟩
  simp only [CurriedTask.new, cellFilled, List.getElem?_replicate] at hv
  by_cases hs : s < t.inputs.length <;> simp [hs] at hv

/-- `Runner::new` on a fresh, well-wired graph succeeds and establishes the
driver invariant; no node has completed yet. -/
theorem runner_new_inv (g : TryGraph Err) (tau : Nat → Task Err)
    (hfresh : Fresh g tau) (hw : WiringWF g.nodes.length tau g.edges) :
    ∃ r, Runner.new g = some r ∧ Inv g.nodes.length tau g.edges r ∧
      ∀ i, ¬ isValueAt r.nodes i := by
  obtain ⟨ns, futs, hinit, hlen, hpt, hfut, hnd, hge⟩ := initCalls_go g.nodes 0
  have hfreshn : ∀ i, i < g.nodes.length → ∀ n0, g.nodes[i]? = some n0 →
      n0 = .curry (CurriedTask.new (tau i)) := by
    intro i hi n0 hn0
    have := hfresh i hi
    rw [this] at hn0
    exact (Option.some.inj hn0).symm
  have hnoval : ∀ i, ¬ isValueAt ns i := by
    intro i hv
    obtain ⟨v, ti, hvi⟩ := hv
    by_cases hi : i < g.nodes.length
    · obtain ⟨n0, hn0, hcase⟩ := hpt i hi
      have hn0e := hfreshn i hi n0 hn0
      rcases hcase with ⟨c2, he, hr2, hns, hmem⟩ | ⟨hnc, hns⟩
      · rw [hns] at hvi; simp at hvi
      · rw [hns] at hvi
        rw [hn0e] at hvi
        simp at hvi
    · rw [List.getElem?_eq_none (by omega : ns.length ≤ i)] at hvi
      simp at hvi
  refine ⟨⟨ns, g.edges, futs⟩, by simp [Runner.new, hinit], ?_, hnoval⟩
  refine ⟨rfl, hlen, ?_, ?_, ?_, ?_, hnd⟩
  · -- curry_inv
    dsimp only
    intro i c hci
    have hi : i < g.nodes.length := by
      have h0 : i < ns.length := lt_of_get?_eq_some hci
      omega
    obtain ⟨n0, hn0, hcase⟩ := hpt i hi
    have hn0e := hfreshn i hi n0 hn0
    rcases hcase with ⟨c2, he, hr2, hns, hmem⟩ | ⟨hnc, hns⟩
    · rw [hns] at hci; simp at hci
    · rw [hns] at hci
      have hc : c = CurriedTask.new (tau i) := by
        rw [hn0e] at hci
        injection Option.some.inj hci with h2
        exact h2.symm
      subst hc
      refine ⟨rfl, by simp [CurriedTask.new], ?_, ?_⟩
      · exact hnc _ hn0e
      · intro e he htgt
        exact iff_of_false cellFilled_new (hnoval e.source)
  · -- started_inv
    dsimp only
    intro i hstart e he htgt
    rcases hstart with hrun | hval
    · obtain ⟨ti, hri⟩ := hrun
      have hi : i < g.nodes.length := by
        have h0 : i < ns.length := lt_of_get?_eq_some hri
        omega
      obtain ⟨n0, hn0, hcase⟩ := hpt i hi
      have hn0e := hfreshn i hi n0 hn0
      rcases hcase with ⟨c2, he2, hr2, hns, hmem⟩ | ⟨hnc, hns⟩
      · -- node i started at init: its task has no inputs, so no edge targets it
        have hc2 : c2 = CurriedTask.new (tau i) := by
          rw [hn0e] at he2
          injection he2.symm with h2
        have hz : (tau i).inputs.length = 0 := by
          rw [hc2] at hr2
          exact (new_ready_iff (tau i)).mp hr2
        obtain ⟨ti2, hti2, -⟩ := hw.typed e he
        rw [htgt] at hti2
        rw [List.getElem?_eq_none (by omega : (tau i).inputs.length ≤ e.slot)] at hti2
        simp at hti2
      · rw [hns] at hri
        rw [hn0e] at hri
        simp at hri
    · exact absurd hval (hnoval i)
  · -- running_inv
    dsimp only
    intro i hr
    obtain ⟨ti, hri⟩ := hr
    have hi : i < g.nodes.length := by
      have h0 : i < ns.length := lt_of_get?_eq_some hri
      omega
    obtain ⟨n0, hn0, hcase⟩ := hpt i hi
    have hn0e := hfreshn i hi n0 hn0
    rcases hcase with ⟨c2, he2, hr2, hns, hmem⟩ | ⟨hnc, hns⟩
    · exact ⟨_, hmem, by simp⟩
    · rw [hns] at hri
      rw [hn0e] at hri
      simp at hri
  · -- fut_wf
    dsimp only
    intro fut hf
    obtain ⟨i, c, hi, hidx, hn, hready, hns, hres⟩ := hfut fut hf
    have hidx2 : fut.index = i := by omega
    have hc : c = CurriedTask.new (tau i) := by
      have h3 := hfreshn i hi _ hn
      injection h3 with h2
    refine ⟨by omega, ⟨c.task.output, by rw [hidx2]; exact hns⟩, ?_⟩
    intro v hv
    rw [hres] at hv
    obtain ⟨w, hw2, hveq⟩ := exceptMap_ok hv
    rw [hveq, hidx2, hc]
    rfl

/-! ### Helpers for the fan-out proof. -/

theorem set_getElem?_same {α : Type _} {l : List α} {i : Nat} {a : α}
    (h : l[i]? = some a) : l.set i a = l := by
  apply List.ext_getElem?
  intro j
  by_cases hj : i = j
  · subst hj
    rw [List.getElem?_set_self (lt_of_get?_eq_some h)]
    exact h.symm
  · exact List.getElem?_set_ne hj

theorem isValueAt_set_iff {nodes : List (Node Err)} {t : Nat} {a b : Node Err}
    (ha : nodes[t]? = some a) (hA : ∀ v ti, a ≠ .value v ti)
    (hB : ∀ v ti, b ≠ .value v ti) :
    ∀ j, isValueAt (nodes.set t b) j ↔ isValueAt nodes j := by
  intro j
  by_cases hj : t = j
  · subst hj
    constructor
    · rintro ⟨v, ti, hv⟩
      rw [List.getElem?_set_self (lt_of_get?_eq_some ha)] at hv
      exact absurd (Option.some.inj hv) (hB v ti)
    · rintro ⟨v, ti, hv⟩
      rw [ha] at hv
      exact absurd (Option.some.inj hv) (hA v ti)
  · unfold isValueAt
    rw [List.getElem?_set_ne hj]

theorem isValueAt_set_of {nodes : List (Node Err)} {t : Nat} {a b : Node Err}
    (ha : nodes[t]? = some a) (hA : ∀ v ti, a ≠ .value v ti) {j : Nat}
    (h : isValueAt nodes j) : isValueAt (nodes.set t b) j := by
  by_cases hj : t = j
  · subst hj
    obtain ⟨v, ti, hv⟩ := h
    rw [ha] at hv
    exact absurd (Option.some.inj hv) (hA v ti)
  · unfold isValueAt
    rw [List.getElem?_set_ne hj]
    exact h

/-- A ready buffer has every declared cell filled. -/
theorem cellFilled_of_ready {c : CurriedTask Err} (h : c.ready = true) {s : Nat}
    (hs : s < c.cells.length) : cellFilled c s := by
  have hfn : firstNone c.cells = none := by
    simpa [CurriedTask.ready, Option.isNone_iff_eq_none] using h
  exact firstNone_eq_none_iff.mp hfn s hs

/-- Edges into a node that is not pending are irrelevant to the cell
invariant, so processing such an edge only extends `done`. -/
theorem midinv_extend_noncurry {N : Nat} {tau : Nat → Task Err} {es : List EdgeRec}
    {p : Nat} {e : EdgeRec} {done : List EdgeRec} {nodes : List (Node Err)}
    (hnc : ∀ c2, nodes[e.target]? ≠ some (.curry c2))
    (hmid : MidInv N tau es p done nodes) :
    MidInv N tau es p (done ++ [e]) nodes := by
  refine ⟨hmid.len, hmid.p_running, ?_, hmid.started_inv⟩
  intro i c hc
  obtain ⟨h1, h2, h3, h4⟩ := hmid.curry_inv i c hc
  refine ⟨h1, h2, h3, ?_⟩
  intro e2 he2 ht2
  rw [h4 e2 he2 ht2]
  have hne : e2 ≠ e := by
    intro hh
    subst hh
    rw [ht2] at hnc
    exact hnc c hc
  constructor
  · rintro (hv | ⟨hp2, hd⟩)
    · exact Or.inl hv
    · exact Or.inr ⟨hp2, List.mem_append.mpr (Or.inl hd)⟩
  · rintro (hv | ⟨hp2, hd⟩)
    · exact Or.inl hv
    · rcases List.mem_append.mp hd with hd | hd
      · exact Or.inr ⟨hp2, hd⟩
      · exact absurd (List.mem_singleton.mp hd) hne

/-- Inserting the completing node's output into a pending consumer that does
not become ready preserves the fan-out invariant. -/
theorem midinv_insert_kept {N : Nat} {tau : Nat → Task Err} {es : List EdgeRec}
    (hw : WiringWF N tau es) {p : Nat} {o : DynAny} {e : EdgeRec}
    {done : List EdgeRec} {nodes : List (Node Err)} {c : CurriedTask Err}
    (he : e ∈ es) (hsrc : e.source = p)
    (hchild : nodes[e.target]? = some (.curry c))
    (hmid : MidInv N tau es p done nodes)
    (hr1 : (⟨c.task, c.cells.set e.slot (some o)⟩ : CurriedTask Err).ready = false) :
    MidInv N tau es p (done ++ [e])
      (nodes.set e.target (.curry ⟨c.task, c.cells.set e.slot (some o)⟩)) := by
  obtain ⟨hctask, hclen, hcready, hciff⟩ := hmid.curry_inv e.target c hchild
  have htlt : e.target < nodes.length := lt_of_get?_eq_some hchild
  obtain ⟨ti, hty, hid⟩ := hw.typed e he
  have hslot : e.slot < c.cells.length := by
    rw [hclen]; exact lt_of_get?_eq_some hty
  have hAcurry : ∀ (v : DynAny) (ti2 : TypeInfo), Node.curry c ≠ .value v ti2 :=
    fun v ti2 h => nomatch h
  have hBcurry : ∀ (v : DynAny) (ti2 : TypeInfo),
      (Node.curry ⟨c.task, c.cells.set e.slot (some o)⟩ : Node Err) ≠ .value v ti2 :=
    fun v ti2 h => nomatch h
  have hvaliff := isValueAt_set_iff hchild hAcurry hBcurry
  have hne_p : e.target ≠ p := by
    intro hh
    obtain ⟨tip, hp⟩ := hmid.p_running
    rw [← hh, hchild] at hp
    nomatch Option.some.inj hp
  refine ⟨by rw [List.length_set]; exact hmid.len, ?_, ?_, ?_⟩
  · obtain ⟨tip, hp⟩ := hmid.p_running
    exact ⟨tip, by rw [List.getElem?_set_ne hne_p]; exact hp⟩
  · intro i c2 hc2
    by_cases hi : e.target = i
    · subst hi
      rw [List.getElem?_set_self htlt] at hc2
      injection Option.some.inj hc2 with hc2e
      subst hc2e
      refine ⟨hctask, by rw [List.length_set]; exact hclen, hr1, ?_⟩
      intro e2 he2 ht2
      by_cases hs : e2.slot = e.slot
      · have he2e : e2 = e := hw.uniqueSlot e2 he2 e he ht2 hs
        subst he2e
        refine iff_of_true ⟨o, ?_⟩ (Or.inr ⟨hsrc, List.mem_append.mpr
          (Or.inr (List.mem_singleton.mpr rfl))⟩)
        exact List.getElem?_set_self hslot
      · have hfe : cellFilled (⟨c.task, c.cells.set e.slot (some o)⟩ : CurriedTask Err)
            e2.slot ↔ cellFilled c e2.slot := by
          unfold cellFilled
          rw [List.getElem?_set_ne (fun hh => hs hh.symm)]
        rw [hfe, hciff e2 he2 ht2]
        have hne2 : e2 ≠ e := fun hh => hs (by rw [hh])
        constructor
        · rintro (hv | ⟨hp2, hd⟩)
          · exact Or.inl ((hvaliff _).mpr hv)
          · exact Or.inr ⟨hp2, List.mem_append.mpr (Or.inl hd)⟩
        · rintro (hv | ⟨hp2, hd⟩)
          · exact Or.inl ((hvaliff _).mp hv)
          · rcases List.mem_append.mp hd with hd | hd
            · exact Or.inr ⟨hp2, hd⟩
            · exact absurd (List.mem_singleton.mp hd) hne2
    · rw [List.getElem?_set_ne hi] at hc2
      obtain ⟨h1, h2, h3, h4⟩ := hmid.curry_inv i c2 hc2
      refine ⟨h1, h2, h3, ?_⟩
      intro e2 he2 ht2
      rw [h4 e2 he2 ht2]
      have hne2 : e2 ≠ e := fun hh => hi (by rw [← hh]; exact ht2)
      constructor
      · rintro (hv | ⟨hp2, hd⟩)
        · exact Or.inl ((hvaliff _).mpr hv)
        · exact Or.inr ⟨hp2, List.mem_append.mpr (Or.inl hd)⟩
      · rintro (hv | ⟨hp2, hd⟩)
        · exact Or.inl ((hvaliff _).mp hv)
        · rcases List.mem_append.mp hd with hd | hd
          · exact Or.inr ⟨hp2, hd⟩
          · exact absurd (List.mem_singleton.mp hd) hne2
  · intro i hstart e2 he2 ht2
    have hi : e.target ≠ i := by
      intro hh
      subst hh
      rcases hstart with ⟨ti3, h3⟩ | ⟨v3, ti3, h3⟩ <;>
        · rw [List.getElem?_set_self htlt] at h3
          nomatch Option.some.inj h3
    have hstart2 : isRunningAt nodes i ∨ isValueAt nodes i := by
      rcases hstart with h3 | h3
      · obtain ⟨ti3, h4⟩ := h3
        rw [List.getElem?_set_ne hi] at h4
        exact Or.inl ⟨ti3, h4⟩
      · exact Or.inr ((hvaliff i).mp h3)
    rcases hmid.started_inv i hstart2 e2 he2 ht2 with hv | hp2
    · exact Or.inl (isValueAt_set_of hchild hAcurry hv)
    · exact Or.inr hp2

/-- Inserting the completing node's output into a pending consumer that
becomes ready (so it is started) preserves the fan-out invariant. -/
theorem midinv_insert_started {N : Nat} {tau : Nat → Task Err} {es : List EdgeRec}
    (hw : WiringWF N tau es) {p : Nat} {o : DynAny} {e : EdgeRec}
    {done : List EdgeRec} {nodes : List (Node Err)} {c : CurriedTask Err}
    (he : e ∈ es) (hsrc : e.source = p)
    (hchild : nodes[e.target]? = some (.curry c))
    (hmid : MidInv N tau es p done nodes)
    (hr1 : (⟨c.task, c.cells.set e.slot (some o)⟩ : CurriedTask Err).ready = true) :
    MidInv N tau es p (done ++ [e])
      (nodes.set e.target (.running c.task.output)) := by
  obtain ⟨hctask, hclen, hcready, hciff⟩ := hmid.curry_inv e.target c hchild
  have htlt : e.target < nodes.length := lt_of_get?_eq_some hchild
  obtain ⟨ti, hty, hid⟩ := hw.typed e he
  have hslot : e.slot < c.cells.length := by
    rw [hclen]; exact lt_of_get?_eq_some hty
  have hAcurry : ∀ (v : DynAny) (ti2 : TypeInfo), Node.curry c ≠ .value v ti2 :=
    fun v ti2 h => nomatch h
  have hBrun : ∀ (v : DynAny) (ti2 : TypeInfo),
      (Node.running c.task.output : Node Err) ≠ .value v ti2 :=
    fun v ti2 h => nomatch h
  have hvaliff := isValueAt_set_iff hchild hAcurry hBrun
  have hne_p : e.target ≠ p := by
    intro hh
    obtain ⟨tip, hp⟩ := hmid.p_running
    rw [← hh, hchild] at hp
    nomatch Option.some.inj hp
  refine ⟨by rw [List.length_set]; exact hmid.len, ?_, ?_, ?_⟩
  · obtain ⟨tip, hp⟩ := hmid.p_running
    exact ⟨tip, by rw [List.getElem?_set_ne hne_p]; exact hp⟩
  · intro i c2 hc2
    by_cases hi : e.target = i
    · subst hi
      rw [List.getElem?_set_self htlt] at hc2
      nomatch Option.some.inj hc2
    · rw [List.getElem?_set_ne hi] at hc2
      obtain ⟨h1, h2, h3, h4⟩ := hmid.curry_inv i c2 hc2
      refine ⟨h1, h2, h3, ?_⟩
      intro e2 he2 ht2
      rw [h4 e2 he2 ht2]
      have hne2 : e2 ≠ e := fun hh => hi (by rw [← hh]; exact ht2)
      constructor
      · rintro (hv | ⟨hp2, hd⟩)
        · exact Or.inl ((hvaliff _).mpr hv)
        · exact Or.inr ⟨hp2, List.mem_append.mpr (Or.inl hd)⟩
      · rintro (hv | ⟨hp2, hd⟩)
        · exact Or.inl ((hvaliff _).mp hv)
        · rcases List.mem_append.mp hd with hd | hd
          · exact Or.inr ⟨hp2, hd⟩
          · exact absurd (List.mem_singleton.mp hd) hne2
  · intro i hstart e2 he2 ht2
    by_cases hi : e.target = i
    · -- the newly started consumer: all its cells are filled
      subst hi
      by_cases hs : e2.slot = e.slot
      · have he2e : e2 = e := hw.uniqueSlot e2 he2 e he ht2 hs
        subst he2e
        exact Or.inr hsrc
      · have hfill : cellFilled (⟨c.task, c.cells.set e.slot (some o)⟩ : CurriedTask Err)
            e2.slot := by
          apply cellFilled_of_ready hr1
          show e2.slot < (c.cells.set e.slot (some o)).length
          rw [List.length_set, hclen]
          obtain ⟨ti2, hty2, -⟩ := hw.typed e2 he2
          rw [ht2] at hty2
          exact lt_of_get?_eq_some hty2
        have hfc : cellFilled c e2.slot := by
          obtain ⟨v2, hv2⟩ := hfill
          rw [show ((⟨c.task, c.cells.set e.slot (some o)⟩ : CurriedTask Err).cells) =
            c.cells.set e.slot (some o) from rfl] at hv2
          rw [List.getElem?_set_ne (fun hh => hs hh.symm)] at hv2
          exact ⟨v2, hv2⟩
        rcases (hciff e2 he2 ht2).mp hfc with hv | ⟨hp2, -⟩
        · exact Or.inl (isValueAt_set_of hchild hAcurry hv)
        · exact Or.inr hp2
    · have hstart2 : isRunningAt nodes i ∨ isValueAt nodes i := by
        rcases hstart with h3 | h3
        · obtain ⟨ti3, h4⟩ := h3
          rw [List.getElem?_set_ne hi] at h4
          exact Or.inl ⟨ti3, h4⟩
        · exact Or.inr ((hvaliff i).mp h3)
      rcases hmid.started_inv i hstart2 e2 he2 ht2 with hv | hp2
      · exact Or.inl (isValueAt_set_of hchild hAcurry hv)
      · exact Or.inr hp2

/-- The fan-out loop of `Runner::step` never panics and preserves the
invariant: processing the outgoing edges `rem` of the completing node `p`
(whose output is `o`, of `p`'s declared output type) fills the pending
consumers' cells and starts exactly the consumers that become ready. -/
theorem fanout_spec {N : Nat} {tau : Nat → Task Err} {es : List EdgeRec}
    (hw : WiringWF N tau es) (p : Nat) (o : DynAny)
    (ho : o.type_info = (tau p).output) :
    ∀ rem done nodes, (∀ e ∈ rem, e ∈ es ∧ e.source = p) →
      MidInv N tau es p done nodes →
      ∃ nodes2 futures, fanout nodes rem o = some (nodes2, futures) ∧
        MidInv N tau es p (done ++ rem) nodes2 ∧
        FanoutPost N tau nodes nodes2 futures := by
  intro rem
  induction rem with
  | nil =>
    intro done nodes hrem hmid
    refine ⟨nodes, [], rfl, by simpa using hmid, ?_⟩
    exact ⟨fun i v ti h => h, fun i ti h => h, fun i h => h, fun i h => Or.inl h,
      by simp, by simp⟩
  | cons e rest ih =>
    intro done nodes hrem hmid
    obtain ⟨he, hsrc⟩ := hrem e (List.mem_cons_self e rest)
    have hrest : ∀ e2 ∈ rest, e2 ∈ es ∧ e2.source = p :=
      fun e2 h2 => hrem e2 (List.mem_cons_of_mem e h2)
    have htlt : e.target < nodes.length := by
      rw [hmid.len]; exact (hw.bounds e he).2
    obtain ⟨child, hchild⟩ := get?_isSome_of_lt htlt
    have happ : done ++ [e] ++ rest = done ++ e :: rest := by simp
    cases child with
    | value v ti =>
      have hnc : ∀ c2 : CurriedTask Err, nodes[e.target]? ≠ some (.curry c2) := by
        intro c2 hc2
        rw [hchild] at hc2
        nomatch Option.some.inj hc2
      have hmid2 : MidInv N tau es p (done ++ [e]) nodes :=
        midinv_extend_noncurry hnc hmid
      obtain ⟨nodes2, futures, hf, hmid3, hpost⟩ := ih (done ++ [e]) nodes hrest hmid2
      refine ⟨nodes2, futures, ?_, by rwa [happ] at hmid3, hpost⟩
      simp [fanout, hchild, call_node, set_getElem?_same hchild, hf]
    | running ti =>
      have hnc : ∀ c2 : CurriedTask Err, nodes[e.target]? ≠ some (.curry c2) := by
        intro c2 hc2
        rw [hchild] at hc2
        nomatch Option.some.inj hc2
      have hmid2 : MidInv N tau es p (done ++ [e]) nodes :=
        midinv_extend_noncurry hnc hmid
      obtain ⟨nodes2, futures, hf, hmid3, hpost⟩ := ih (done ++ [e]) nodes hrest hmid2
      refine ⟨nodes2, futures, ?_, by rwa [happ] at hmid3, hpost⟩
      simp [fanout, hchild, call_node, set_getElem?_same hchild, hf]
    | curry c =>
      obtain ⟨hctask, hclen, hcready, hciff⟩ := hmid.curry_inv e.target c hchild
      obtain ⟨ti, hty, hid⟩ := hw.typed e he
      have hty2 : c.task.inputs[e.slot]? = some ti := by rw [hctask]; exact hty
      have hido : o.type_info.id = ti.id := by
        rw [ho, ← hsrc]; exact hid.symm
      have hcurry : c.curry e.slot o = .ok ⟨c.task, c.cells.set e.slot (some o)⟩ := by
        simp [CurriedTask.curry, insertCell, hty2, hido, Except.map]
      have hAcurry : ∀ (v2 : DynAny) (ti2 : TypeInfo), Node.curry c ≠ .value v2 ti2 :=
        fun v2 ti2 h => nomatch h
      by_cases hr1 : (⟨c.task, c.cells.set e.slot (some o)⟩ : CurriedTask Err).ready = true
      · -- the consumer becomes ready and is started
        have hmid2 := midinv_insert_started hw he hsrc hchild hmid hr1
        obtain ⟨nodes2, futures, hf, hmid3, hpost⟩ :=
          ih (done ++ [e]) (nodes.set e.target (.running c.task.output)) hrest hmid2
        have hrun_tgt : (nodes.set e.target (.running c.task.output))[e.target]? =
            some (.running c.task.output) := List.getElem?_set_self htlt
        refine ⟨nodes2,
          ⟨e.target, (c.task.run (c.cells.set e.slot (some o)).reduceOption).map
            fun v2 => ⟨c.task.output, v2⟩⟩ :: futures, ?_, by rwa [happ] at hmid3, ?_⟩
        · simp [fanout, hchild, hcurry, Except.map, Except.toOption,
            call_node_curry_ready hr1, hf]
        · refine ⟨?_, ?_, ?_, ?_, ?_, ?_⟩
          · intro i v2 ti2 hv2
            have hne : e.target ≠ i := by
              intro hh; rw [← hh, hchild] at hv2; nomatch Option.some.inj hv2
            exact hpost.val_pres i v2 ti2 (by rw [List.getElem?_set_ne hne]; exact hv2)
          · intro i ti2 hv2
            have hne : e.target ≠ i := by
              intro hh; rw [← hh, hchild] at hv2; nomatch Option.some.inj hv2
            exact hpost.run_pres i ti2 (by rw [List.getElem?_set_ne hne]; exact hv2)
          · intro i hv
            have hv2 := hpost.val_back i hv
            exact (isValueAt_set_iff hchild hAcurry
              (fun v2 ti2 h => Node.noConfusion h) i).mp hv2
          · intro i hr
            rcases hpost.run_back i hr with hr2 | ⟨fut, hfm, hfi⟩
            · by_cases hi : e.target = i
              · exact Or.inr ⟨_, List.mem_cons_self _ _, hi⟩
              · obtain ⟨ti2, h4⟩ := hr2
                rw [List.getElem?_set_ne hi] at h4
                exact Or.inl ⟨ti2, h4⟩
            · exact Or.inr ⟨fut, List.mem_cons_of_mem _ hfm, hfi⟩
          · intro fut hfm
            rcases List.mem_cons.mp hfm with hfm | hfm
            · subst hfm
              refine ⟨(hw.bounds e he).2, ⟨c, hchild⟩, ?_, ?_⟩
              · exact ⟨c.task.output, hpost.run_pres _ _ hrun_tgt⟩
              · intro v2 hv2
                obtain ⟨w, hw2, hveq⟩ := exceptMap_ok hv2
                rw [hveq, hctask]
            · obtain ⟨h1, ⟨c2, h2⟩, h3, h4⟩ := hpost.fut_new fut hfm
              have hne : e.target ≠ fut.index := by
                intro hh
                rw [← hh, hrun_tgt] at h2
                nomatch Option.some.inj h2
              rw [List.getElem?_set_ne hne] at h2
              exact ⟨h1, ⟨c2, h2⟩, h3, h4⟩
          · rw [List.map_cons, List.nodup_cons]
            refine ⟨?_, hpost.new_nodup⟩
            intro hmem
            rcases List.mem_map.mp hmem with ⟨fut, hfm, hfi⟩
            obtain ⟨-, ⟨c2, h2⟩, -, -⟩ := hpost.fut_new fut hfm
            have hne : e.target ≠ fut.index := by
              intro hh
              rw [← hh, hrun_tgt] at h2
              nomatch Option.some.inj h2
            exact hne (by rw [hfi])
      · -- the consumer stays pending with one more cell filled
        have hr0 : (⟨c.task, c.cells.set e.slot (some o)⟩ : CurriedTask Err).ready = false := by
          simpa using hr1
        have hmid2 := midinv_insert_kept hw he hsrc hchild hmid hr0
        obtain ⟨nodes2, futures, hf, hmid3, hpost⟩ :=
          ih (done ++ [e]) (nodes.set e.target
            (.curry ⟨c.task, c.cells.set e.slot (some o)⟩)) hrest hmid2
        have hcur_tgt : (nodes.set e.target
            (.curry ⟨c.task, c.cells.set e.slot (some o)⟩))[e.target]? =
            some (.curry ⟨c.task, c.cells.set e.slot (some o)⟩) :=
          List.getElem?_set_self htlt
        refine ⟨nodes2, futures, ?_, by rwa [happ] at hmid3, ?_⟩
        · simp [fanout, hchild, hcurry, Except.map, Except.toOption,
            call_node_curry_not_ready hr0, hf]
        · refine ⟨?_, ?_, ?_, ?_, ?_, hpost.new_nodup⟩
          · intro i v2 ti2 hv2
            have hne : e.target ≠ i := by
              intro hh; rw [← hh, hchild] at hv2; nomatch Option.some.inj hv2
            exact hpost.val_pres i v2 ti2 (by rw [List.getElem?_set_ne hne]; exact hv2)
          · intro i ti2 hv2
            have hne : e.target ≠ i := by
              intro hh; rw [← hh, hchild] at hv2; nomatch Option.some.inj hv2
            exact hpost.run_pres i ti2 (by rw [List.getElem?_set_ne hne]; exact hv2)
          · intro i hv
            have hv2 := hpost.val_back i hv
            exact (isValueAt_set_iff hchild hAcurry
              (fun v2 ti2 h => Node.noConfusion h) i).mp hv2
          · intro i hr
            rcases hpost.run_back i hr with hr2 | ⟨fut, hfm, hfi⟩
            · obtain ⟨ti2, h4⟩ := hr2
              have hne : e.target ≠ i := by
                intro hh
                rw [← hh, hcur_tgt] at h4
                nomatch Option.some.inj h4
              rw [List.getElem?_set_ne hne] at h4
              exact Or.inl ⟨ti2, h4⟩
            · exact Or.inr ⟨fut, hfm, hfi⟩
          · intro fut hfm
            obtain ⟨h1, ⟨c2, h2⟩, h3, h4⟩ := hpost.fut_new fut hfm
            by_cases hne : e.target = fut.index
            · exact ⟨h1, ⟨c, by rw [← hne]; exact hchild⟩, h3, h4⟩
            · rw [List.getElem?_set_ne hne] at h2
              exact ⟨h1, ⟨c2, h2⟩, h3, h4⟩

theorem mem_eraseIdx_of_ne {α : Type _} {l : List α} {k : Nat} {a x : α}
    (hget : l[k]? = some a) (hx : x ∈ l) (hne : x ≠ a) : x ∈ l.eraseIdx k := by
  obtain ⟨j, hj⟩ := List.mem_iff_getElem?.mp hx
  by_cases hjk : j = k
  · subst hjk
    rw [hget] at hj
    exact absurd (Option.some.inj hj).symm hne
  · exact mem_eraseIdx_of_getElem? hjk hj

theorem eraseIdx_map_ne {α β : Type _} {l : List α} {f : α → β} {k : Nat} {a : α}
    (hnd : (l.map f).Nodup) (hget : l[k]? = some a) :
    ∀ x ∈ l.eraseIdx k, f x ≠ f a := by
  induction l generalizing k with
  | nil => simp at hget
  | cons y rest ih =>
    rw [List.map_cons, List.nodup_cons] at hnd
    cases k with
    | zero =>
      have hy : y = a := by simpa using hget
      subst hy
      intro x hx
      simp only [List.eraseIdx] at hx
      intro hfx
      exact hnd.1 (hfx ▸ List.mem_map_of_mem f hx)
    | succ k2 =>
      have hget2 : rest[k2]? = some a := by simpa using hget
      intro x hx
      simp only [List.eraseIdx] at hx
      rcases List.mem_cons.mp hx with hx | hx
      · subst hx
        intro hfx
        exact hnd.1 (hfx ▸ List.mem_map_of_mem f (mem_of_get?_eq_some hget2))
      · exact ih hnd.2 hget2 x hx

/-- One successful step preserves the driver invariant; an erroring step
fails cleanly. In both cases the step itself never panics. -/
theorem step_spec {N : Nat} {tau : Nat → Task Err} {es : List EdgeRec}
    (hw : WiringWF N tau es) (r : Runner Err) (hinv : Inv N tau es r)
    (choice : Nat) (fut : RunningNode Err)
    (hget : r.running[choice % r.running.length]? = some fut) :
    ∃ res, r.step choice = some res ∧ ∀ r1, res = .ok r1 → Inv N tau es r1 := by
  obtain ⟨hplt, hrun_p, htyped_p⟩ := hinv.fut_wf fut (mem_of_get?_eq_some hget)
  cases hres : fut.result with
  | error e =>
    refine ⟨.fail e ⟨r.nodes, r.edges, []⟩, ?_, ?_⟩
    · simp [Runner.step, hget, hres]
    · intro r1 h
      nomatch h
  | ok o =>
    have ho : o.type_info = (tau fut.index).output := htyped_p o hres
    have hmid : MidInv N tau es fut.index [] r.nodes := by
      refine ⟨hinv.nodes_len, hrun_p, ?_, ?_⟩
      · intro i c hc
        obtain ⟨h1, h2, h3, h4⟩ := hinv.curry_inv i c hc
        refine ⟨h1, h2, h3, ?_⟩
        intro e2 he2 ht2
        rw [h4 e2 he2 ht2]
        simp
      · intro i h e2 he2 ht2
        exact Or.inl (hinv.started_inv i h e2 he2 ht2)
    have hfilter : ∀ e2 ∈ (r.edges.filter fun e3 => e3.source == fut.index),
        e2 ∈ es ∧ e2.source = fut.index := by
      intro e2 h2
      rw [List.mem_filter] at h2
      refine ⟨hinv.edges_eq ▸ h2.1, by simpa using h2.2⟩
    obtain ⟨nodes2, futures, hf, hmid2, hpost⟩ :=
      fanout_spec hw fut.index o ho _ [] r.nodes hfilter hmid
    obtain ⟨tio, hrun2⟩ := hmid2.p_running
    have hplt2 : fut.index < nodes2.length := by rw [hmid2.len]; exact hplt
    have hval_p : (nodes2.set fut.index (.value o tio))[fut.index]? =
        some (.value o tio) := List.getElem?_set_self hplt2
    have hBrun : ∀ (v2 : DynAny) (ti2 : TypeInfo),
        (Node.running tio : Node Err) ≠ .value v2 ti2 :=
      fun v2 ti2 h => Node.noConfusion h
    have hval_iff : ∀ j, j ≠ fut.index →
        (isValueAt (nodes2.set fut.index (.value o tio)) j ↔ isValueAt nodes2 j) := by
      intro j hj
      unfold isValueAt
      rw [List.getElem?_set_ne (fun hh => hj hh.symm)]
    have hval_of : ∀ j, isValueAt nodes2 j →
        isValueAt (nodes2.set fut.index (.value o tio)) j :=
      fun j h => isValueAt_set_of hrun2 hBrun h
    refine ⟨.ok ⟨nodes2.set fut.index (.value o tio), r.edges,
      (r.running.eraseIdx (choice % r.running.length)) ++ futures⟩, ?_, ?_⟩
    · simp [Runner.step, hget, hres, hf, hrun2]
    · intro r1 h1
      have hr1 : r1 = ⟨nodes2.set fut.index (.value o tio), r.edges,
          (r.running.eraseIdx (choice % r.running.length)) ++ futures⟩ := by
        injection h1 with h2
        exact h2.symm
      subst hr1
      have hrest_ne : ∀ x ∈ r.running.eraseIdx (choice % r.running.length),
          x.index ≠ fut.index :=
        fun x hx => eraseIdx_map_ne hinv.fut_nodup hget x hx
      refine ⟨hinv.edges_eq, ?_, ?_, ?_, ?_, ?_, ?_⟩
      · dsimp only
        rw [List.length_set, hmid2.len]
      · -- curry_inv
        dsimp only
        intro i c hc
        have hip : fut.index ≠ i := by
          intro hh
          rw [← hh, hval_p] at hc
          nomatch Option.some.inj hc
        rw [List.getElem?_set_ne hip] at hc
        obtain ⟨h1c, h2c, h3c, h4c⟩ := hmid2.curry_inv i c hc
        refine ⟨h1c, h2c, h3c, ?_⟩
        intro e2 he2 ht2
        rw [h4c e2 he2 ht2]
        by_cases hsp : e2.source = fut.index
        · have hfilt : e2 ∈ r.edges.filter fun e3 => e3.source == fut.index := by
            rw [List.mem_filter]
            exact ⟨hinv.edges_eq ▸ he2, by simp [hsp]⟩
          refine iff_of_true (Or.inr ⟨hsp, by simpa using hfilt⟩) ?_
          rw [hsp]
          exact ⟨o, tio, hval_p⟩
        · have hnv2 : ¬ isValueAt nodes2 fut.index := by
            rintro ⟨v3, ti3, h3⟩
            rw [hrun2] at h3
            nomatch Option.some.inj h3
          constructor
          · rintro (hv | ⟨hp2, -⟩)
            · exact (hval_iff e2.source (fun hh => hsp hh)).mpr hv
            · exact absurd hp2 hsp
          · intro hv
            exact Or.inl ((hval_iff e2.source (fun hh => hsp hh)).mp hv)
      · -- started_inv
        dsimp only
        intro i hstart e2 he2 ht2
        by_cases hip : i = fut.index
        · subst hip
          have := hmid2.started_inv fut.index (Or.inl ⟨tio, hrun2⟩) e2 he2 ht2
          rcases this with hv | hp2
          · exact hval_of _ hv
          · rw [hp2]
            exact ⟨o, tio, hval_p⟩
        · have hstart2 : isRunningAt nodes2 i ∨ isValueAt nodes2 i := by
            rcases hstart with ⟨ti3, h3⟩ | h3
            · rw [List.getElem?_set_ne (fun hh => hip hh.symm)] at h3
              exact Or.inl ⟨ti3, h3⟩
            · exact Or.inr ((hval_iff i hip).mp h3)
          rcases hmid2.started_inv i hstart2 e2 he2 ht2 with hv | hp2
          · exact hval_of _ hv
          · rw [hp2]
            exact ⟨o, tio, hval_p⟩
      · -- running_inv
        dsimp only
        intro i hr2
        have hip : fut.index ≠ i := by
          intro hh
          obtain ⟨ti3, h3⟩ := hr2
          rw [← hh, hval_p] at h3
          nomatch Option.some.inj h3
        have hr3 : isRunningAt nodes2 i := by
          obtain ⟨ti3, h3⟩ := hr2
          rw [List.getElem?_set_ne hip] at h3
          exact ⟨ti3, h3⟩
        rcases hpost.run_back i hr3 with hr4 | ⟨fut2, hfm, hfi⟩
        · obtain ⟨fut2, hfm, hfi⟩ := hinv.running_inv i hr4
          refine ⟨fut2, List.mem_append.mpr (Or.inl ?_), hfi⟩
          refine mem_eraseIdx_of_ne hget hfm ?_
          intro hh
          rw [hh] at hfi
          exact hip hfi
        · exact ⟨fut2, List.mem_append.mpr (Or.inr hfm), hfi⟩
      · -- fut_wf
        dsimp only
        intro fut2 hfm
        rcases List.mem_append.mp hfm with hfm | hfm
        · have hmem := (List.eraseIdx_sublist _ _).subset hfm
          obtain ⟨h1f, h2f, h3f⟩ := hinv.fut_wf fut2 hmem
          have hne := hrest_ne fut2 hfm
          refine ⟨h1f, ?_, h3f⟩
          obtain ⟨ti3, h4⟩ := h2f
          have h5 := hpost.run_pres _ _ h4
          exact ⟨ti3, by rw [List.getElem?_set_ne (fun hh => hne hh.symm)]; exact h5⟩
        · obtain ⟨h1f, ⟨c2, h2f⟩, h3f, h4f⟩ := hpost.fut_new fut2 hfm
          have hne : fut2.index ≠ fut.index := by
            intro hh
            obtain ⟨ti3, h5⟩ := hrun_p
            rw [hh] at h2f
            rw [h2f] at h5
            nomatch Option.some.inj h5
          refine ⟨h1f, ?_, h4f⟩
          obtain ⟨ti3, h5⟩ := h3f
          exact ⟨ti3, by rw [List.getElem?_set_ne (fun hh => hne hh.symm)]; exact h5⟩
      · -- fut_nodup
        dsimp only
        rw [List.map_append, List.nodup_append]
        refine ⟨((List.eraseIdx_sublist _ _).map RunningNode.index).nodup
          hinv.fut_nodup, hpost.new_nodup, ?_⟩
        intro a ha hb
        rcases List.mem_map.mp ha with ⟨f1, hf1, hi1⟩
        rcases List.mem_map.mp hb with ⟨f2, hf2, hi2⟩
        obtain ⟨-, h2f, -⟩ :=
          hinv.fut_wf f1 ((List.eraseIdx_sublist _ _).subset hf1)
        obtain ⟨-, ⟨c2, h2c⟩, -, -⟩ := hpost.fut_new f2 hf2
        obtain ⟨ti3, h3⟩ := h2f
        rw [hi2] at h2c
        rw [hi1] at h3
        rw [h2c] at h3
        nomatch Option.some.inj h3

/-- In an invariant-satisfying driver state with no in-flight futures, every
node of a fully wired graph with topologically ranked edges has completed. -/
theorem terminal_all_value {N : Nat} {tau : Nat → Task Err} {es : List EdgeRec}
    {rk : Nat → Nat} (hw : WiringWF N tau es) (hfw : FullyWired N tau es)
    (hrk : ∀ e ∈ es, rk e.source < rk e.target)
    {r : Runner Err} (hinv : Inv N tau es r) (hempty : r.running = []) :
    ∀ i < N, isValueAt r.nodes i := by
  have main : ∀ m, ∀ i, i < N → rk i < m → isValueAt r.nodes i := by
    intro m
    induction m with
    | zero =>
      intro i _ h
      omega
    | succ m ih =>
      intro i hiN him
      have hlen : i < r.nodes.length := by rw [hinv.nodes_len]; exact hiN
      obtain ⟨nd, hnd⟩ : ∃ nd, r.nodes[i]? = some nd :=
        ⟨r.nodes[i], List.getElem?_eq_getElem hlen⟩
      cases nd with
      | value v ti => exact ⟨v, ti, hnd⟩
      | running ti =>
        obtain ⟨fut, hmem, -⟩ := hinv.running_inv i ⟨ti, hnd⟩
        rw [hempty] at hmem
        nomatch hmem
      | curry c =>
        obtain ⟨-, hclen, hcr, hciff⟩ := hinv.curry_inv i c hnd
        exfalso
        have hfill : ∀ s, s < c.cells.length → ∃ v, c.cells[s]? = some (some v) := by
          intro s hs
          rw [hclen] at hs
          obtain ⟨e, he, het, hes⟩ := hfw i hiN s hs
          have hsrcN : e.source < N := (hw.bounds e he).1
          have h1 := hrk e he
          rw [het] at h1
          have hv := ih e.source hsrcN (by omega)
          have h2 := (hciff e he het).mpr hv
          rw [hes] at h2
          exact h2
        have hready : c.ready = true := by
          unfold CurriedTask.ready
          rw [firstNone_eq_none_iff.mpr hfill]
          rfl
        rw [hcr] at hready
        nomatch hready
  exact fun i hi => main (rk i + 1) i hi (Nat.lt_succ_self _)

/-- Acyclicity of a bounded edge list yields a topological rank. -/
theorem acyclic_rank {N : Nat} {es : List EdgeRec}
    (hb : ∀ e ∈ es, e.source < N ∧ e.target < N) (hacyc : Acyclic es) :
    ∃ rk : Nat → Nat, ∀ e ∈ es, rk e.source < rk e.target := by
  classical
  refine ⟨fun i => ((Finset.range N).filter fun j => HasPath es j i).card, ?_⟩
  intro e he
  apply Finset.card_lt_card
  rw [Finset.ssubset_iff_of_subset]
  · refine ⟨e.target, ?_, ?_⟩
    · rw [Finset.mem_filter, Finset.mem_range]
      exact ⟨(hb e he).2, HasPath.refl _⟩
    · rw [Finset.mem_filter]
      rintro ⟨-, hp⟩
      exact hacyc e he hp
  · intro j hj
    rw [Finset.mem_filter] at hj ⊢
    exact ⟨hj.1, HasPath.tail hj.2 he⟩

/-- The driver loop preserves the invariant; it reports a non-error finish
only from a state with no in-flight futures. -/
theorem runLoop_inv {N : Nat} {tau : Nat → Task Err} {es : List EdgeRec}
    (hw : WiringWF N tau es) :
    ∀ (s : List Nat) (r r1 : Runner Err), Inv N tau es r →
      r.runLoop s = some (.ok (), r1) → Inv N tau es r1 ∧ r1.running = [] := by
  intro s
  induction s with
  | nil =>
    intro r r1 hinv h
    simp only [Runner.runLoop] at h
    by_cases he : r.running.isEmpty
    · rw [if_pos he] at h
      injection h with h2
      injection h2 with h3 h4
      subst h4
      exact ⟨hinv, List.isEmpty_iff.mp he⟩
    · rw [if_neg he] at h
      nomatch h
  | cons c cs ih =>
    intro r r1 hinv h
    simp only [Runner.runLoop] at h
    by_cases he : r.running.isEmpty
    · rw [if_pos he] at h
      injection h with h2
      injection h2 with h3 h4
      subst h4
      exact ⟨hinv, List.isEmpty_iff.mp he⟩
    · rw [if_neg he] at h
      have hne : r.running ≠ [] := fun hh => he (by rw [hh]; rfl)
      have hlt : c % r.running.length < r.running.length :=
        Nat.mod_lt _ (List.length_pos.mpr hne)
      obtain ⟨fut, hget⟩ : ∃ fut, r.running[c % r.running.length]? = some fut :=
        ⟨r.running[c % r.running.length], List.getElem?_eq_getElem hlt⟩
      obtain ⟨res, hstep, hok⟩ := step_spec hw r hinv c fut hget
      rw [hstep] at h
      cases res with
      | ok r2 => exact ih r2 r1 (hok r2 rfl) h
      | fail e r2 => simp at h

/-- Every driver state reachable while running a fresh well-wired graph
satisfies the invariant. -/
theorem reach_inv {tau : Nat → Task Err} {g : TryGraph Err}
    (hfresh : Fresh g tau) (hw : WiringWF g.nodes.length tau g.edges) :
    ∀ r, RunnerReach g r → Inv g.nodes.length tau g.edges r := by
  intro r hr
  induction hr with
  | init r hnew =>
    obtain ⟨r2, hnew2, hinv2, -⟩ := runner_new_inv g tau hfresh hw
    rw [hnew2] at hnew
    rw [← Option.some.inj hnew]
    exact hinv2
  | step r2 choice r3 hreach hstep ih =>
    by_cases hne : r2.running = []
    · rw [Runner.step, hne] at hstep
      simp at hstep
    · have hlt : choice % r2.running.length < r2.running.length :=
        Nat.mod_lt _ (List.length_pos.mpr hne)
      obtain ⟨fut, hget⟩ : ∃ fut, r2.running[choice % r2.running.length]? = some fut :=
        ⟨r2.running[choice % r2.running.length], List.getElem?_eq_getElem hlt⟩
      obtain ⟨res, hstep2, hok⟩ := step_spec hw r2 ih choice fut hget
      rw [hstep2] at hstep
      cases res with
      | ok r4 =>
        have : r4 = r3 := by
          injection hstep with h2
          injection h2
        rw [← this]
        exact hok r4 rfl
      | fail e r4 =>
        injection hstep with h2
        nomatch h2

/-- C2 (amended): after a successful `try_run` of a fresh graph whose wiring
is well-formed, acyclic, and feeds every declared input slot of every node,
every node of the returned graph is in the `Value` (Ready) state. The
full-wiring hypothesis is necessary: the spec's unconditional claim fails on
a graph with an unfed input slot (see the counterexample). -/
theorem c2_run_all_value (tau : Nat → Task Err) (g : TryGraph Err)
    (schedule : List Nat) (g1 : TryGraph Err)
    (hfresh : Fresh g tau) (hw : WiringWF g.nodes.length tau g.edges)
    (hfw : FullyWired g.nodes.length tau g.edges) (hacyc : Acyclic g.edges)
    (hrun : g.try_run schedule = some (.ok (), g1)) :
    ∀ i < g1.nodes.length, isValueAt g1.nodes i := by
  obtain ⟨r0, hnew, hinv0, -⟩ := runner_new_inv g tau hfresh hw
  simp only [TryGraph.try_run, hnew] at hrun
  cases hloop : r0.runLoop schedule with
  | none =>
    rw [hloop] at hrun
    nomatch hrun
  | some p =>
    obtain ⟨res, r1⟩ := p
    rw [hloop] at hrun
    simp only [Option.map_some'] at hrun
    injection hrun with h2
    injection h2 with h3 h4
    rw [h3] at hloop
    obtain ⟨hinv1, hempty⟩ := runLoop_inv hw schedule r0 r1 hinv0 hloop
    obtain ⟨rk, hrk⟩ := acyclic_rank hw.bounds hacyc
    have hall := terminal_all_value hw hfw hrk hinv1 hempty
    intro i hi
    rw [← h4] at hi ⊢
    dsimp only at hi ⊢
    exact hall i (by rw [← hinv1.nodes_len]; exact hi)

/-- A run of the single-node graph with an unfed input slot succeeds while
leaving the node pending, never Ready: the spec's unconditional C2 is
false. -/
theorem c2_counterexample :
    ∃ g1, c2Gap.try_run [] = some (.ok (), g1) ∧ g1.nodes.length = 1 ∧
      ¬ isValueAt g1.nodes 0 := by
  refine ⟨⟨[.curry (CurriedTask.new taskA1)], [], []⟩, rfl, rfl, ?_⟩
  rintro ⟨v, ti, h⟩
  simp at h

/-- C2's amended theorem holds concretely on the fully wired two-node
chain. -/
theorem c2_run_all_value_witness :
    isValueAt c2After.nodes 0 ∧ isValueAt c2After.nodes 1 := by
  have hall : ∀ i < c2After.nodes.length, isValueAt c2After.nodes i := by
    refine c2_run_all_value c6Tau c6Graph [0, 0] c2After ?_ ?_ ?_ ?_ rfl
    · intro i hi
      simp [c6Graph] at hi
      interval_cases i <;> rfl
    · refine ⟨?_, ?_, ?_⟩
      · intro e he
        simp only [c6Graph, List.mem_singleton] at he
        subst he
        exact ⟨by simp [c6Graph], by simp [c6Graph]⟩
      · intro e he
        simp only [c6Graph, List.mem_singleton] at he
        subst he
        exact ⟨tyA, rfl, rfl⟩
      · intro e1 h1 e2 h2 _ _
        simp only [c6Graph, List.mem_singleton] at h1 h2
        rw [h1, h2]
    · intro i hi s hs
      simp [c6Graph] at hi
      interval_cases i
      · simp [c6Tau, taskA0] at hs
      · have hs0 : s = 0 := by
          simp only [c6Tau, taskA1] at hs
          simpa using Nat.lt_one_iff.mp hs
        subst hs0
        exact ⟨⟨0, 1, 0⟩, by simp [c6Graph], rfl, rfl⟩
    · intro e he
      simp only [c6Graph, List.mem_singleton] at he
      subst he
      intro hp
      cases hp with
      | tail hpath hmem => simp [c6Graph] at hmem
  exact ⟨hall 0 (by simp [c2After]), hall 1 (by simp [c2After])⟩

/-- C7: while running a fresh well-wired graph, a node is started (Running
or already completed) only when every producer wired into one of its input
slots has completed: the driver respects the data-flow happens-before
order. -/
theorem c7_happens_before (tau : Nat → Task Err) (g : TryGraph Err)
    (hfresh : Fresh g tau) (hw : WiringWF g.nodes.length tau g.edges)
    (r : Runner Err) (hr : RunnerReach g r) (i : Nat)
    (hstart : isRunningAt r.nodes i ∨ isValueAt r.nodes i) :
    ∀ e ∈ g.edges, e.target = i → isValueAt r.nodes e.source := by
  have hinv := reach_inv hfresh hw r hr
  intro e he het
  exact hinv.started_inv i hstart e he het

/-- C7 holds concretely mid-run of the two-node chain: the consumer is
running and its producer has indeed completed. -/
theorem c7_happens_before_witness : isValueAt c7MidRunner.nodes 0 := by
  refine c7_happens_before c6Tau c6Graph ?_ ?_ c7MidRunner ?_ 1
    (Or.inl ⟨tyA, rfl⟩) ⟨0, 1, 0⟩ (by simp [c6Graph]) rfl
  · intro i hi
    simp [c6Graph] at hi
    interval_cases i <;> rfl
  · refine ⟨?_, ?_, ?_⟩
    · intro e he
      simp only [c6Graph, List.mem_singleton] at he
      subst he
      exact ⟨by simp [c6Graph], by simp [c6Graph]⟩
    · intro e he
      simp only [c6Graph, List.mem_singleton] at he
      subst he
      exact ⟨tyA, rfl, rfl⟩
    · intro e1 h1 e2 h2 _ _
      simp only [c6Graph, List.mem_singleton] at h1 h2
      rw [h1, h2]
  · exact RunnerReach.step c7StartRunner 0 c7MidRunner
      (RunnerReach.init c7StartRunner rfl) rfl

/-- C9: starting from a fresh graph whose edges all pass the
construction-time type check, the driver's panic branches are unreachable:
`Runner::new` succeeds, and `Runner::step` succeeds from every reachable
state with a nonempty in-flight set (every curry along an edge fits its
slot, and `call` is only reached on ready nodes). -/
theorem c9_no_panic (tau : Nat → Task Err) (g : TryGraph Err)
    (hfresh : Fresh g tau) (hw : WiringWF g.nodes.length tau g.edges) :
    (∃ r0, Runner.new g = some r0) ∧
    ∀ r, RunnerReach g r → ∀ choice, r.running ≠ [] →
      ∃ res, r.step choice = some res := by
  constructor
  · obtain ⟨r0, hnew, -, -⟩ := runner_new_inv g tau hfresh hw
    exact ⟨r0, hnew⟩
  · intro r hr choice hne
    have hinv := reach_inv hfresh hw r hr
    have hlt : choice % r.running.length < r.running.length :=
      Nat.mod_lt _ (List.length_pos.mpr hne)
    obtain ⟨fut, hget⟩ : ∃ fut, r.running[choice % r.running.length]? = some fut :=
      ⟨r.running[choice % r.running.length], List.getElem?_eq_getElem hlt⟩
    obtain ⟨res, hstep, -⟩ := step_spec hw r hinv choice fut hget
    exact ⟨res, hstep⟩

/-- C9 holds concretely: the step completing the consumer of the two-node
chain does not hit a panic branch. -/
theorem c9_no_panic_witness : ∃ res, c7MidRunner.step 0 = some res := by
  refine (c9_no_panic c6Tau c6Graph ?_ ?_).2 c7MidRunner ?_ 0 (by simp [c7MidRunner])
  · intro i hi
    simp [c6Graph] at hi
    interval_cases i <;> rfl
  · refine ⟨?_, ?_, ?_⟩
    · intro e he
      simp only [c6Graph, List.mem_singleton] at he
      subst he
      exact ⟨by simp [c6Graph], by simp [c6Graph]⟩
    · intro e he
      simp only [c6Graph, List.mem_singleton] at he
      subst he
      exact ⟨tyA, rfl, rfl⟩
    · intro e1 h1 e2 h2 _ _
      simp only [c6Graph, List.mem_singleton] at h1 h2
      rw [h1, h2]
  · exact RunnerReach.step c7StartRunner 0 c7MidRunner
      (RunnerReach.init c7StartRunner rfl) rfl

/-- C5 holds concretely: inserting a well-typed value into the sole cell of
an arity-one buffer succeeds and fills that cell. -/
theorem c5_insert_characterization_witness :
    insertCell [tyA] [none] 0 ⟨tyA, 0⟩ = .ok [some ⟨tyA, 0⟩] := by
  have h := (c5_insert_characterization [tyA] [none] 0 ⟨tyA, 0⟩ rfl).2.2 tyA rfl rfl
  exact h.1

/-- C4 holds concretely: a parent added at an undeclared slot of the pending
unary node is refused with `OutOfRange 1`, handing the task back, and the
graph is returned unchanged. -/
theorem c4_add_parent_errors_witness :
    c2Gap.add_parent_try_task taskA0 0 5 =
      some (.error ⟨.outOfRange 1, taskA0⟩, c2Gap) := by
  have h := (c4_add_parent_errors c2Gap taskA0 0 5).2.2.1 (CurriedTask.new taskA1)
    rfl (by decide)
  exact h

theorem fibEdges_length (n : Nat) : (fibEdges n).length = 2 * n := by
  induction n with
  | zero => rfl
  | succ n ih =>
    rw [fibEdges, List.length_append, ih]
    simp
    omega

theorem fibNodes_length (n : Nat) : (fibNodes n).length = n + 2 := by
  induction n with
  | zero => rfl
  | succ n ih =>
    rw [fibNodes, List.length_append, ih]
    rfl

theorem fibNodes_getElem? (n k : Nat) :
    (fibNodes n)[k]? =
      if k < n + 2 then some (.curry (CurriedTask.new (fibTau k))) else none := by
  induction n generalizing k with
  | zero =>
    match k with
    | 0 => rfl
    | 1 => rfl
    | k + 2 =>
      rw [if_neg (by omega)]
      rfl
  | succ n ih =>
    by_cases hk : k < n + 2
    · rw [fibNodes, List.getElem?_append_left (by rw [fibNodes_length]; exact hk), ih,
        if_pos hk, if_pos (by omega)]
    · by_cases hk2 : k = n + 2
      · subst hk2
        have hlen := fibNodes_length n
        rw [if_pos (by omega), fibNodes]
        have hcat : (fibNodes n ++ [Node.curry (CurriedTask.new sumTask)])[n + 2]? =
            some (.curry (CurriedTask.new sumTask)) := by
          rw [show n + 2 = (fibNodes n).length from hlen.symm]
          exact List.getElem?_concat_length _ _
        rw [hcat]
        simp only [fibTau]
        rw [if_neg (by omega)]
      · rw [if_neg (by omega)]
        apply List.getElem?_eq_none
        rw [fibNodes, List.length_append, fibNodes_length]
        simp
        omega

theorem fibDeps_key_lt (n : Nat) : ∀ p ∈ fibDeps n, p.1.1 < n + 2 := by
  induction n with
  | zero =>
    intro p hp
    simp [fibDeps] at hp
  | succ n ih =>
    intro p hp
    simp only [fibDeps, List.mem_cons] at hp
    rcases hp with h | h | h
    · subst h
      exact Nat.lt_succ_self (n + 2)
    · subst h
      exact Nat.lt_succ_self (n + 2)
    · exact Nat.lt_succ_of_lt (ih p h)

theorem fibDeps_lookup_none (n k s : Nat) (h : n + 2 ≤ k) :
    depsLookup (fibDeps n) (k, s) = none := by
  rw [depsLookup, List.find?_eq_none.mpr]
  · rfl
  · intro p hp
    have hlt := fibDeps_key_lt n p hp
    simp only [decide_eq_true_eq]
    intro heq
    rw [heq] at hlt
    simp at hlt
    omega

theorem fibEdges_src_le (n : Nat) : ∀ e ∈ fibEdges n, e.source ≤ n := by
  induction n with
  | zero =>
    intro e he
    simp [fibEdges] at he
  | succ n ih =>
    intro e he
    simp only [fibEdges, List.mem_append, List.mem_cons, List.mem_singleton,
      List.not_mem_nil, or_false] at he
    rcases he with h | h | h
    · exact Nat.le_succ_of_le (ih e h)
    · subst h
      exact Nat.le_succ n
    · subst h
      exact Nat.le_refl (n + 1)

theorem reachb_no_src {es : List EdgeRec} {fuel src tgt : Nat}
    (h : ∀ e ∈ es, e.source ≠ src) (hne : src ≠ tgt) :
    reachb es (fuel + 1) src tgt = false := by
  have h1 : (src == tgt) = false := by simpa using hne
  have h2 : (es.any fun e => e.source == src && reachb es fuel e.target tgt) = false := by
    rw [List.any_eq_false]
    intro e he
    have h3 : (e.source == src) = false := by simpa using h e he
    simp [h3]
  rw [show reachb es (fuel + 1) src tgt =
    (src == tgt || es.any fun e => e.source == src && reachb es fuel e.target tgt) from rfl]
  rw [h1, h2]
  rfl

theorem filter_pair_src (a b : EdgeRec) (m : Nat) :
    List.filter (fun e => e.source == m) [a, b] =
      (if a.source = m then [a] else []) ++ (if b.source = m then [b] else []) := by
  by_cases h1 : a.source = m <;> by_cases h2 : b.source = m <;>
    simp [List.filter_cons, h1, h2]

theorem fibEdges_filter (n m : Nat) :
    (fibEdges n).filter (fun e => e.source == m) =
      (if 1 ≤ m ∧ m ≤ n then [⟨m, m + 1, 1⟩] else []) ++
      (if m + 1 ≤ n then [⟨m, m + 2, 0⟩] else []) := by
  induction n with
  | zero =>
    rw [if_neg (show ¬(1 ≤ m ∧ m ≤ 0) by omega), if_neg (show ¬ m + 1 ≤ 0 by omega)]
    rfl
  | succ n ih =>
    rw [fibEdges, List.filter_append, ih, filter_pair_src]
    dsimp only
    by_cases hm1 : 1 ≤ m
    · by_cases hmn : m ≤ n
      · rw [if_pos ⟨hm1, hmn⟩, if_pos (show 1 ≤ m ∧ m ≤ n + 1 by omega),
          if_pos (show m + 1 ≤ n + 1 by omega),
          if_neg (show ¬ n + 1 = m by omega)]
        by_cases hlt : m + 1 ≤ n
        · rw [if_pos hlt, if_neg (show ¬ n = m by omega)]
          simp
        · have hnm : n = m := by omega
          rw [if_neg hlt, if_pos hnm]
          subst hnm
          simp
      · rw [if_neg (show ¬(1 ≤ m ∧ m ≤ n) by omega), if_neg (show ¬ m + 1 ≤ n by omega),
          if_neg (show ¬ n = m by omega)]
        by_cases hd : m = n + 1
        · rw [if_pos (show n + 1 = m from hd.symm),
            if_pos (show 1 ≤ m ∧ m ≤ n + 1 by omega),
            if_neg (show ¬ m + 1 ≤ n + 1 by omega)]
          subst hd
          simp
        · rw [if_neg (show ¬ n + 1 = m by omega),
            if_neg (show ¬(1 ≤ m ∧ m ≤ n + 1) by omega),
            if_neg (show ¬ m + 1 ≤ n + 1 by omega)]
          rfl
    · have hm : m = 0 := by omega
      subst hm
      rw [if_neg (show ¬(1 ≤ 0 ∧ 0 ≤ n) by omega),
        if_neg (show ¬(1 ≤ 0 ∧ 0 ≤ n + 1) by omega),
        if_neg (show ¬ n + 1 = 0 by omega), if_pos (show 0 + 1 ≤ n + 1 by omega)]
      by_cases hn0 : n = 0
      · subst hn0
        rw [if_neg (show ¬ 0 + 1 ≤ 0 by omega), if_pos (show 0 = 0 from rfl)]
        simp
      · rw [if_pos (show 0 + 1 ≤ n by omega), if_neg (show ¬ n = 0 from hn0)]
        simp

theorem range_map_getElem? {α : Type _} (N k : Nat) (f : Nat → α) :
    ((List.range N).map f)[k]? = if k < N then some (f k) else none := by
  by_cases hk : k < N
  · rw [List.getElem?_map, List.getElem?_range hk, if_pos hk]
    rfl
  · rw [if_neg hk]
    apply List.getElem?_eq_none
    simp
    omega

theorem range_map_set {α : Type _} (N k : Nat) (f : Nat → α) (a : α) :
    ((List.range N).map f).set k a =
      (List.range N).map fun j => if j = k then a else f j := by
  apply List.ext_getElem?
  intro i
  rw [range_map_getElem?]
  by_cases hik : i = k
  · subst hik
    by_cases hi : i < N
    · rw [List.getElem?_set_self (by simpa using hi), if_pos hi, if_pos rfl]
    · rw [List.getElem?_eq_none (by simp; omega), if_neg hi]
  · rw [List.getElem?_set_ne (fun h => hik h.symm), range_map_getElem?]
    by_cases hi : i < N
    · rw [if_pos hi, if_pos hi, if_neg hik]
    · rw [if_neg hi, if_neg hi]

theorem range_map_congr {α : Type _} {N : Nat} {f g : Nat → α}
    (h : ∀ k < N, f k = g k) :
    (List.range N).map f = (List.range N).map g := by
  apply List.map_congr_left
  intro k hk
  exact h k (List.mem_range.mp hk)

theorem fibTau_output (k : Nat) : (fibTau k).output = i32Ti := by
  by_cases h : k < 2 <;> simp [fibTau, h, oneTask, sumTask]

theorem fib_out_ti (n k : Nat) (hk : k < n + 2) :
    (fibGraph n).output_type_info k = some i32Ti := by
  simp only [TryGraph.output_type_info, fibGraph]
  rw [fibNodes_getElem?, if_pos hk, Option.map_some']
  simp only [CurriedTask.output_type_info, CurriedTask.new]
  rw [fibTau_output]

theorem fib_add_child (n : Nat) :
    (fibGraph n).add_child_try_task n sumTask 0 =
      some (.ok (n + 2), ⟨fibNodes n ++ [.curry (CurriedTask.new sumTask)],
        fibEdges n ++ [⟨n, n + 2, 0⟩], ((n + 2, 0), 2 * n) :: fibDeps n⟩) := by
  have h1 : sumTask.inputs[0]? = some i32Ti := rfl
  have h2 : (⟨fibNodes n, fibEdges n, fibDeps n⟩ : Graph).output_type_info n = some i32Ti :=
    fib_out_ti n n (by omega)
  have h4 : depsLookup (fibDeps n) ((fibNodes n).length, 0) = none := by
    rw [fibNodes_length]
    exact fibDeps_lookup_none n (n + 2) 0 (le_refl _)
  simp only [TryGraph.add_child_try_task, fibGraph, h1, h2, h4,
    show check_type_equality i32Ti i32Ti = .ok () from rfl]
  rw [fibNodes_length, fibEdges_length]

theorem fib_update_dep (n : Nat) :
    (⟨fibNodes n ++ [.curry (CurriedTask.new sumTask)], fibEdges n ++ [⟨n, n + 2, 0⟩],
      ((n + 2, 0), 2 * n) :: fibDeps n⟩ : Graph).update_dependency (n + 1) (n + 2) 1 =
      some (.ok (), fibGraph (n + 1)) := by
  have ha : (fibNodes n ++ [Node.curry (CurriedTask.new sumTask)])[n + 1]? =
      some (.curry (CurriedTask.new (fibTau (n + 1)))) := by
    rw [List.getElem?_append_left (by rw [fibNodes_length]; omega), fibNodes_getElem?,
      if_pos (by omega)]
  have hb : (fibNodes n ++ [Node.curry (CurriedTask.new sumTask)])[n + 2]? =
      some (.curry (CurriedTask.new sumTask)) := by
    rw [show n + 2 = (fibNodes n).length from (fibNodes_length n).symm]
    exact List.getElem?_concat_length _ _
  have hout : (⟨fibNodes n ++ [.curry (CurriedTask.new sumTask)],
      fibEdges n ++ [⟨n, n + 2, 0⟩], ((n + 2, 0), 2 * n) :: fibDeps n⟩ :
      Graph).output_type_info (n + 1) = some i32Ti := by
    simp only [TryGraph.output_type_info]
    rw [ha, Option.map_some']
    simp only [CurriedTask.output_type_info, CurriedTask.new]
    rw [fibTau_output]
  have htc : (⟨fibNodes n ++ [.curry (CurriedTask.new sumTask)],
      fibEdges n ++ [⟨n, n + 2, 0⟩], ((n + 2, 0), 2 * n) :: fibDeps n⟩ :
      Graph).type_check (n + 2) 1 i32Ti = some (.ok ()) := by
    simp only [TryGraph.type_check]
    rw [hb, Option.map_some']
    simp only [show (CurriedTask.new sumTask).input_type_info 1 = some i32Ti from rfl]
    rfl
  have hc : depsLookup (((n + 2, 0), 2 * n) :: fibDeps n) (n + 2, 1) = none := by
    rw [depsLookup, List.find?_cons_of_neg _ (by simp)]
    have h5 : ((fibDeps n).find? fun p => p.1 = (n + 2, 1)) = none := by
      have h6 := fibDeps_lookup_none n (n + 2) 1 (le_refl _)
      rw [depsLookup] at h6
      exact Option.map_eq_none'.mp h6
    rw [h5]
    rfl
  have hrem : (⟨fibNodes n ++ [.curry (CurriedTask.new sumTask)],
      fibEdges n ++ [⟨n, n + 2, 0⟩], ((n + 2, 0), 2 * n) :: fibDeps n⟩ :
      Graph).remove_dependency (n + 2) 1 =
      some (false, ⟨fibNodes n ++ [.curry (CurriedTask.new sumTask)],
        fibEdges n ++ [⟨n, n + 2, 0⟩], ((n + 2, 0), 2 * n) :: fibDeps n⟩) := by
    simp only [TryGraph.remove_dependency, hc]
  have hlen : (fibNodes n ++ [Node.curry (CurriedTask.new sumTask)]).length = n + 2 + 1 := by
    rw [List.length_append, fibNodes_length]
    rfl
  have hreach : reachb (fibEdges n ++ [⟨n, n + 2, 0⟩]) (n + 2 + 1) (n + 2) (n + 1) = false := by
    apply reachb_no_src
    · intro e he
      rcases List.mem_append.mp he with h | h
      · have := fibEdges_src_le n e h
        omega
      · rw [List.mem_singleton] at h
        subst h
        show n ≠ n + 2
        omega
    · omega
  have hadd : dagAddEdge (n + 2 + 1) (fibEdges n ++ [⟨n, n + 2, 0⟩]) (n + 1) (n + 2) 1 =
      .ok ((fibEdges n ++ [(⟨n, n + 2, 0⟩ : EdgeRec)]).length,
        fibEdges n ++ [⟨n, n + 2, 0⟩] ++ [⟨n + 1, n + 2, 1⟩]) := by
    rw [dagAddEdge, hreach]
    rfl
  have hlen2 : (fibEdges n ++ [(⟨n, n + 2, 0⟩ : EdgeRec)]).length = 2 * n + 1 := by
    rw [List.length_append, fibEdges_length]
    rfl
  simp only [TryGraph.update_dependency, hout, htc, hrem, hlen, hadd, hlen2, hc]
  simp only [fibGraph, fibNodes, fibEdges, fibDeps]
  rw [List.append_assoc]
  rfl

theorem fibStep_graph (n : Nat) :
    fibStep (fibGraph n) n (n + 1) = some (n + 2, fibGraph (n + 1)) := by
  simp only [fibStep, fib_add_child, fib_update_dep]

theorem buildFib_eq (n : Nat) : buildFib n = some (n, n + 1, fibGraph n) := by
  induction n with
  | zero => rfl
  | succ n ih =>
    simp only [buildFib, ih, fibStep_graph, Option.map_some']

theorem initCalls_pending {Err : Type} (l : List (Node Err)) :
    ∀ s : Nat, (∀ nd ∈ l, call_node nd = some (nd, none)) →
      initCalls l s = some (l, []) := by
  induction l with
  | nil =>
    intro s h
    rfl
  | cons a rest ih =>
    intro s h
    rw [initCalls, h a (by simp), ih (s + 1) (fun nd hnd => h nd (by simp [hnd]))]
    rfl

theorem fibNodes_eq_rep (n : Nat) : fibNodes n =
    [.curry (CurriedTask.new oneTask), .curry (CurriedTask.new oneTask)] ++
      List.replicate n (.curry (CurriedTask.new sumTask)) := by
  induction n with
  | zero => rfl
  | succ n ih =>
    rw [fibNodes, ih, List.replicate_succ', ← List.append_assoc]

theorem fibStartNodes_eq (n : Nat) : fibStartNodes n =
    Node.running i32Ti :: .running i32Ti ::
      List.replicate n (.curry (CurriedTask.new sumTask)) := by
  apply List.ext_getElem?
  intro i
  simp only [fibStartNodes]
  rw [range_map_getElem?]
  match i with
  | 0 =>
    rw [if_pos (by omega)]
    rfl
  | 1 =>
    rw [if_pos (by omega), List.getElem?_cons_succ, List.getElem?_cons_zero,
      if_pos (by omega)]
  | i + 2 =>
    rw [List.getElem?_cons_succ, List.getElem?_cons_succ]
    by_cases hi : i < n
    · rw [if_pos (by omega), List.getElem?_replicate, if_pos hi]
      rw [if_neg (by omega)]
    · rw [if_neg (by omega), List.getElem?_replicate, if_neg hi]

theorem runner_new_fib (n : Nat) : Runner.new (fibGraph n) = some (fibStartState n) := by
  have hone : call_node (Node.curry (CurriedTask.new oneTask) : Node Empty) =
      some (.running i32Ti, some (.ok ⟨i32Ti, 1⟩)) := rfl
  have hsum : ∀ nd ∈ List.replicate n (Node.curry (CurriedTask.new sumTask) : Node Empty),
      call_node nd = some (nd, none) := by
    intro nd hnd
    rw [List.eq_of_mem_replicate hnd]
    rfl
  have hv1 : (⟨i32Ti, 1⟩ : DynAny) = fibVal 1 := by
    simp [fibVal]
  have hv2 : (⟨i32Ti, 1⟩ : DynAny) = fibVal 2 := by
    simp [fibVal]
  simp only [Runner.new, fibGraph, fibNodes_eq_rep, List.cons_append, List.nil_append,
    initCalls, hone, initCalls_pending _ _ hsum, Option.map_some']
  rw [fibStartState, fibStartNodes_eq]
  rw [← hv1, ← hv2]

theorem fibMidNodes_getElem? (n m k : Nat) :
    (fibMidNodes n m)[k]? =
      if k < n + 2 then
        some (if k < m then .value (fibVal (k + 1)) i32Ti
          else if k = m then .running i32Ti
          else if k = m + 1 then .curry ⟨sumTask, [some (fibVal m), none]⟩
          else .curry (CurriedTask.new sumTask))
      else none := by
  simp only [fibMidNodes]
  rw [range_map_getElem?]

theorem fib_step_start (n : Nat) :
    (fibStartState n).step 0 = some (.ok (fibRunState n 1)) := by
  cases n with
  | zero => rfl
  | succ n =>
    have hget : (fibStartState (n + 1)).running[0 %
        (fibStartState (n + 1)).running.length]? = some ⟨0, .ok (fibVal 1)⟩ := rfl
    have hnod : (fibStartState (n + 1)).nodes = fibStartNodes (n + 1) := rfl
    have hedg : (fibStartState (n + 1)).edges = fibEdges (n + 1) := rfl
    have hrest : (fibStartState (n + 1)).running.eraseIdx (0 %
        (fibStartState (n + 1)).running.length) = [⟨1, .ok (fibVal 2)⟩] := rfl
    have hfil : (fibEdges (n + 1)).filter (fun e => e.source == 0) = [⟨0, 2, 0⟩] := by
      rw [fibEdges_filter, if_neg (show ¬(1 ≤ 0 ∧ 0 ≤ n + 1) by omega),
        if_pos (show 0 + 1 ≤ n + 1 by omega)]
      rfl
    have hn2 : (fibStartNodes (n + 1))[2]? = some (.curry (CurriedTask.new sumTask)) := by
      simp only [fibStartNodes]
      rw [range_map_getElem?, if_pos (by omega)]
      rfl
    have hcur : ((CurriedTask.new sumTask).curry 0 (fibVal 1) :
        Except InsertError (CurriedTask Empty)) =
        .ok ⟨sumTask, [some (fibVal 1), none]⟩ := rfl
    have hcall : call_node (Node.curry
        (⟨sumTask, [some (fibVal 1), none]⟩ : CurriedTask Empty)) =
        some (.curry ⟨sumTask, [some (fibVal 1), none]⟩, none) := rfl
    have hfan : fanout (fibStartNodes (n + 1)) [⟨0, 2, 0⟩] (fibVal 1) =
        some ((fibStartNodes (n + 1)).set 2
          (.curry ⟨sumTask, [some (fibVal 1), none]⟩), []) := by
      simp only [fanout, hn2, hcur, hcall, Except.map, Except.toOption, Option.map_some']
    have hn0 : ((fibStartNodes (n + 1)).set 2
        (.curry ⟨sumTask, [some (fibVal 1), none]⟩))[0]? = some (.running i32Ti) := by
      rw [List.getElem?_set_ne (by omega)]
      simp only [fibStartNodes]
      rw [range_map_getElem?, if_pos (by omega)]
      rfl
    have hnodes : ((fibStartNodes (n + 1)).set 2
        (.curry ⟨sumTask, [some (fibVal 1), none]⟩)).set 0 (.value (fibVal 1) i32Ti) =
        fibMidNodes (n + 1) 1 := by
      simp only [fibStartNodes, fibMidNodes]
      rw [range_map_set, range_map_set]
      apply range_map_congr
      intro k hk
      match k with
      | 0 => rfl
      | 1 => rfl
      | 2 => rfl
      | k + 3 => rfl
    simp only [Runner.step, hget, hnod, hedg, hrest, hfil, hfan, hn0, hnodes,
      List.append_nil]
    rfl

theorem wrap32_eq_self {x : Int} (h1 : -2147483648 ≤ x) (h2 : x < 2147483648) :
    wrap32 x = x := by
  rw [wrap32, Int.emod_eq_of_lt (by omega) (by omega)]
  omega

theorem fib_lt_i32_max {k : Nat} (hk : k ≤ 46) : (Nat.fib k : Int) < 2147483648 := by
  have h1 : Nat.fib k ≤ Nat.fib 46 := Nat.fib_mono hk
  have h2 : Nat.fib 46 = 1836311903 := by decide
  omega

theorem fib_step_mid (n m c : Nat) (h44 : n ≤ 44) (h1 : 1 ≤ m) (h2 : m ≤ n) :
    (fibRunState n m).step c = some (.ok (fibRunState n (m + 1))) := by
  have hget : (fibRunState n m).running[c % (fibRunState n m).running.length]? =
      some ⟨m, .ok (fibVal (m + 1))⟩ := by
    show ([⟨m, .ok (fibVal (m + 1))⟩] : List (RunningNode Empty))[c % 1]? = _
    rw [Nat.mod_one]
    rfl
  have hnod : (fibRunState n m).nodes = fibMidNodes n m := rfl
  have hedg : (fibRunState n m).edges = fibEdges n := rfl
  have hrest : (fibRunState n m).running.eraseIdx (c %
      (fibRunState n m).running.length) = [] := by
    show ([⟨m, .ok (fibVal (m + 1))⟩] : List (RunningNode Empty)).eraseIdx (c % 1) = []
    rw [Nat.mod_one]
    rfl
  have hsum : wrap32 ((Nat.fib m : Int) + (Nat.fib (m + 1) : Int)) =
      ((Nat.fib (m + 2) : Nat) : Int) := by
    have heq : ((Nat.fib m : Int) + (Nat.fib (m + 1) : Int)) =
        ((Nat.fib (m + 2) : Nat) : Int) := by
      rw [Nat.fib_add_two]
      push_cast
      ring
    rw [heq]
    refine wrap32_eq_self (by omega) (fib_lt_i32_max (by omega))
  have hone : (fibMidNodes n m)[m + 1]? =
      some (.curry ⟨sumTask, [some (fibVal m), none]⟩) := by
    rw [fibMidNodes_getElem?, if_pos (by omega), if_neg (by omega), if_neg (by omega),
      if_pos rfl]
  have hcur1 : ((⟨sumTask, [some (fibVal m), none]⟩ : CurriedTask Empty).curry 1
      (fibVal (m + 1))) = .ok ⟨sumTask, [some (fibVal m), some (fibVal (m + 1))]⟩ := rfl
  have hcall1 : call_node (Node.curry
      (⟨sumTask, [some (fibVal m), some (fibVal (m + 1))]⟩ : CurriedTask Empty)) =
      some (.running i32Ti,
        some (.ok ⟨i32Ti, wrap32 ((Nat.fib m : Int) + (Nat.fib (m + 1) : Int))⟩)) := rfl
  by_cases hcase : m + 1 ≤ n
  · have hfil : (fibEdges n).filter (fun e => e.source == m) =
        [⟨m, m + 1, 1⟩, ⟨m, m + 2, 0⟩] := by
      rw [fibEdges_filter, if_pos ⟨h1, h2⟩, if_pos hcase]
      rfl
    have htwo : ((fibMidNodes n m).set (m + 1) (.running i32Ti))[m + 2]? =
        some (.curry (CurriedTask.new sumTask)) := by
      rw [List.getElem?_set_ne (by omega), fibMidNodes_getElem?, if_pos (by omega),
        if_neg (by omega), if_neg (by omega), if_neg (by omega)]
    have hcur2 : ((CurriedTask.new sumTask).curry 0 (fibVal (m + 1)) :
        Except InsertError (CurriedTask Empty)) =
        .ok ⟨sumTask, [some (fibVal (m + 1)), none]⟩ := rfl
    have hcall2 : call_node (Node.curry
        (⟨sumTask, [some (fibVal (m + 1)), none]⟩ : CurriedTask Empty)) =
        some (.curry ⟨sumTask, [some (fibVal (m + 1)), none]⟩, none) := rfl
    have hfan : fanout (fibMidNodes n m) [⟨m, m + 1, 1⟩, ⟨m, m + 2, 0⟩] (fibVal (m + 1)) =
        some ((((fibMidNodes n m).set (m + 1) (.running i32Ti)).set (m + 2)
          (.curry ⟨sumTask, [some (fibVal (m + 1)), none]⟩)),
          [⟨m + 1, .ok ⟨i32Ti, wrap32 ((Nat.fib m : Int) + (Nat.fib (m + 1) : Int))⟩⟩]) := by
      simp only [fanout, hone, hcur1, hcall1, htwo, hcur2, hcall2, Except.map,
        Except.toOption, Option.map_some']
    have hrun : (((fibMidNodes n m).set (m + 1) (.running i32Ti)).set (m + 2)
        (.curry ⟨sumTask, [some (fibVal (m + 1)), none]⟩))[m]? =
        some (.running i32Ti) := by
      rw [List.getElem?_set_ne (by omega), List.getElem?_set_ne (by omega),
        fibMidNodes_getElem?, if_pos (by omega), if_neg (by omega), if_pos rfl]
    have hnodes : ((((fibMidNodes n m).set (m + 1) (.running i32Ti)).set (m + 2)
        (.curry ⟨sumTask, [some (fibVal (m + 1)), none]⟩))).set m
        (.value (fibVal (m + 1)) i32Ti) = fibMidNodes n (m + 1) := by
      simp only [fibMidNodes]
      rw [range_map_set, range_map_set, range_map_set]
      apply range_map_congr
      intro k hk
      by_cases e0 : k = m
      · subst e0
        rw [if_pos rfl, if_pos (by omega)]
      · rw [if_neg e0]
        by_cases e2 : k = m + 2
        · subst e2
          rw [if_pos rfl, if_neg (by omega), if_neg (by omega), if_pos rfl]
        · rw [if_neg e2]
          by_cases e1 : k = m + 1
          · subst e1
            rw [if_pos rfl, if_neg (by omega), if_pos rfl]
          · rw [if_neg e1]
            by_cases elo : k < m
            · rw [if_pos elo, if_pos (by omega)]
            · rw [if_neg elo, if_neg e0, if_neg e1, if_neg (by omega), if_neg e1,
                if_neg (by omega)]
    simp only [Runner.step, hget, hnod, hedg, hrest, hfil, hfan, hrun, hnodes,
      List.nil_append]
    rw [hsum]
    rfl
  · have hm : m = n := by omega
    have hfil : (fibEdges n).filter (fun e => e.source == m) = [⟨m, m + 1, 1⟩] := by
      rw [fibEdges_filter, if_pos ⟨h1, h2⟩, if_neg hcase]
      rfl
    have hfan : fanout (fibMidNodes n m) [⟨m, m + 1, 1⟩] (fibVal (m + 1)) =
        some ((fibMidNodes n m).set (m + 1) (.running i32Ti),
          [⟨m + 1, .ok ⟨i32Ti, wrap32 ((Nat.fib m : Int) + (Nat.fib (m + 1) : Int))⟩⟩]) := by
      simp only [fanout, hone, hcur1, hcall1, Except.map, Except.toOption,
        Option.map_some']
    have hrun : ((fibMidNodes n m).set (m + 1) (.running i32Ti))[m]? =
        some (.running i32Ti) := by
      rw [List.getElem?_set_ne (by omega), fibMidNodes_getElem?, if_pos (by omega),
        if_neg (by omega), if_pos rfl]
    have hnodes : ((fibMidNodes n m).set (m + 1) (.running i32Ti)).set m
        (.value (fibVal (m + 1)) i32Ti) = fibMidNodes n (m + 1) := by
      simp only [fibMidNodes]
      rw [range_map_set, range_map_set]
      apply range_map_congr
      intro k hk
      by_cases e0 : k = m
      · subst e0
        rw [if_pos rfl, if_pos (by omega)]
      · rw [if_neg e0]
        by_cases e1 : k = m + 1
        · subst e1
          rw [if_pos rfl, if_neg (by omega), if_pos rfl]
        · rw [if_neg e1]
          by_cases elo : k < m
          · rw [if_pos elo, if_pos (by omega)]
          · rw [if_neg elo, if_neg e0, if_neg e1, if_neg (by omega), if_neg e1,
              if_neg (show ¬ k = m + 1 + 1 by omega)]
    simp only [Runner.step, hget, hnod, hedg, hrest, hfil, hfan, hrun, hnodes,
      List.nil_append]
    rw [hsum]
    rfl

theorem fib_step_last (n c : Nat) :
    (fibRunState n (n + 1)).step c = some (.ok (fibFinalState n)) := by
  have hget : (fibRunState n (n + 1)).running[c %
      (fibRunState n (n + 1)).running.length]? = some ⟨n + 1, .ok (fibVal (n + 2))⟩ := by
    show ([⟨n + 1, .ok (fibVal (n + 2))⟩] : List (RunningNode Empty))[c % 1]? = _
    rw [Nat.mod_one]
    rfl
  have hnod : (fibRunState n (n + 1)).nodes = fibMidNodes n (n + 1) := rfl
  have hedg : (fibRunState n (n + 1)).edges = fibEdges n := rfl
  have hrest : (fibRunState n (n + 1)).running.eraseIdx (c %
      (fibRunState n (n + 1)).running.length) = [] := by
    show ([⟨n + 1, .ok (fibVal (n + 2))⟩] : List (RunningNode Empty)).eraseIdx (c % 1) = []
    rw [Nat.mod_one]
    rfl
  have hfil : (fibEdges n).filter (fun e => e.source == n + 1) = [] := by
    rw [fibEdges_filter, if_neg (by omega), if_neg (by omega)]
    rfl
  have hfan : fanout (fibMidNodes n (n + 1)) [] (fibVal (n + 2)) =
      some (fibMidNodes n (n + 1), []) := rfl
  have hrun : (fibMidNodes n (n + 1))[n + 1]? = some (.running i32Ti) := by
    rw [fibMidNodes_getElem?, if_pos (by omega), if_neg (by omega), if_pos rfl]
  have hnodes : (fibMidNodes n (n + 1)).set (n + 1) (.value (fibVal (n + 2)) i32Ti) =
      fibFinalNodes n := by
    simp only [fibMidNodes, fibFinalNodes]
    rw [range_map_set]
    apply range_map_congr
    intro k hk
    by_cases e0 : k = n + 1
    · subst e0
      rw [if_pos rfl]
    · rw [if_neg e0, if_pos (by omega)]
  simp only [Runner.step, hget, hnod, hedg, hrest, hfil, hfan, hrun, hnodes,
    List.append_nil]
  rfl

theorem fib_runLoop_mid (n : Nat) (h44 : n ≤ 44) :
    ∀ (s : List Nat) (m : Nat), 1 ≤ m → m ≤ n + 1 → n + 2 - m ≤ s.length →
      (fibRunState n m).runLoop s = some (.ok (), fibFinalState n) := by
  intro s
  induction s with
  | nil =>
    intro m hm1 hm2 hlen
    simp at hlen
    omega
  | cons c cs ih =>
    intro m hm1 hm2 hlen
    have hne : ¬ ((fibRunState n m).running.isEmpty = true) := by
      rw [show (fibRunState n m).running.isEmpty = false from rfl]
      simp
    simp only [Runner.runLoop]
    rw [if_neg hne]
    by_cases hm : m ≤ n
    · simp only [fib_step_mid n m c h44 hm1 hm]
      refine ih (m + 1) (by omega) (by omega) ?_
      simp only [List.length_cons] at hlen
      omega
    · have hm' : m = n + 1 := by omega
      subst hm'
      simp only [fib_step_last n c]
      cases cs with
      | nil => rfl
      | cons c2 cs2 => rfl

theorem fib_try_run (n : Nat) (h44 : n ≤ 44) :
    (fibGraph n).try_run (List.replicate (n + 3) 0) =
      some (.ok (), ⟨fibFinalNodes n, fibEdges n, fibDeps n⟩) := by
  have hloop : (fibStartState n).runLoop (List.replicate (n + 3) 0) =
      some (.ok (), fibFinalState n) := by
    rw [List.replicate_succ]
    have hne : ¬ ((fibStartState n).running.isEmpty = true) := by
      rw [show (fibStartState n).running.isEmpty = false from rfl]
      simp
    simp only [Runner.runLoop]
    rw [if_neg hne]
    simp only [fib_step_start n]
    exact fib_runLoop_mid n h44 (List.replicate (n + 2) 0) 1 (by omega) (by omega) (by simp)
  simp only [TryGraph.try_run, runner_new_fib, hloop, Option.map_some']
  rfl

theorem fib_run (n : Nat) (h44 : n ≤ 44) :
    (fibGraph n).run (List.replicate (n + 3) 0) =
      some ⟨fibFinalNodes n, fibEdges n, fibDeps n⟩ := by
  simp only [Graph.run, fib_try_run n h44, Option.map_some']

theorem fib_get_value (n : Nat) :
    (⟨fibFinalNodes n, fibEdges n, fibDeps n⟩ : Graph).get_value (n + 1) i32Ti =
      some (some ((Nat.fib (n + 2) : Nat) : Int)) := by
  have hn : (fibFinalNodes n)[n + 1]? = some (.value (fibVal (n + 2)) i32Ti) := by
    simp only [fibFinalNodes]
    rw [range_map_getElem?, if_pos (by omega)]
  simp only [TryGraph.get_value, hn, Option.map_some']
  rw [if_pos (show (fibVal (n + 2)).type_info.id = i32Ti.id from rfl)]
  rfl

theorem fibResult_eq (n : Nat) (h44 : n ≤ 44) :
    fibResult n = some ((Nat.fib (n + 2) : Nat) : Int) := by
  simp only [fibResult, buildFib_eq, fib_run n h44, fib_get_value]

/-- C3 (amended): the Fibonacci ladder of `examples/fib.rs` — two literal-1
nodes, then for each iteration a two-input sum task wired to the previous
two — computes, after `run`, the value `F(n + 2)` at the last node for every
ladder size `n ≤ 44`, the whole range on which every intermediate `i32` sum
fits (`F(46) = 1836311903 < 2^31`, while at `n = 45` the final addition
overflows `i32::MAX`: a release build wraps, a debug build panics). The
claim's concrete figure for its own `N = 44` is wrong: the program yields
`F(46) = 1836311903`, not `701408733` (which is `F(44)`); see the
counterexample. -/
theorem c3_fib_ladder (n : Nat) (h : n ≤ 44) :
    fibResult n = some ((Nat.fib (n + 2) : Nat) : Int) :=
  fibResult_eq n h

/-- With `N = 44` the fib pipeline returns `1836311903`, not the spec's
`701408733`. -/
theorem c3_counterexample :
    fibResult 44 = some 1836311903 ∧ (1836311903 : Int) ≠ 701408733 := by
  refine ⟨?_, by decide⟩
  rw [fibResult_eq 44 (by norm_num), show Nat.fib (44 + 2) = 1836311903 from by decide]
  rfl

/-- C3's amended theorem holds concretely on the four-node ladder:
`fibResult 2 = F(4) = 3`. -/
theorem c3_fib_ladder_witness : fibResult 2 = some ((Nat.fib (2 + 2) : Nat) : Int) :=
  c3_fib_ladder 2 (by norm_num)

end AsyncDag
